import Mathlib

/-!
Verification of the Rasterizer2 software-rasterization pipeline.

The C++ sources (geometry.h, gl.h and the main translation unit) are shallowly
embedded below.  Scalars (`float` in the source) are modelled as exact
rationals `ℚ`; `float`-to-`int` conversion is modelled as truncation toward
zero, matching C++ semantics.  Buffers (`float *` / `Vec3f *`) are modelled as
total functions from indices to values, and in-place writes as functional
updates.
-/

set_option maxRecDepth 10000

namespace Rasterizer

/-- Scalar type standing in for C++ `float`; arithmetic is exact. -/
abbrev F := ℚ

/-- The `vec<2,float>` type from geometry.h. -/
structure Vec2 where
  x : F
  y : F
deriving DecidableEq, Repr, Inhabited

/-- The `vec<3,float>` type from geometry.h. -/
structure Vec3 where
  x : F
  y : F
  z : F
deriving DecidableEq, Repr, Inhabited

/-- The `vec<4,float>` type from geometry.h. -/
structure Vec4 where
  x : F
  y : F
  z : F
  w : F
deriving DecidableEq, Repr, Inhabited

/-- Componentwise addition, `operator+` of geometry.h. -/
def Vec2.add (a b : Vec2) : Vec2 := ⟨a.x + b.x, a.y + b.y⟩

/-- Componentwise subtraction, `operator-` of geometry.h. -/
def Vec2.sub (a b : Vec2) : Vec2 := ⟨a.x - b.x, a.y - b.y⟩

/-- Vector-scalar multiplication, `operator*` of geometry.h. -/
def Vec2.smul (a : Vec2) (s : F) : Vec2 := ⟨a.x * s, a.y * s⟩

/-- Componentwise addition, `operator+` of geometry.h. -/
def Vec3.add (a b : Vec3) : Vec3 := ⟨a.x + b.x, a.y + b.y, a.z + b.z⟩

/-- Componentwise subtraction, `operator-` of geometry.h. -/
def Vec3.sub (a b : Vec3) : Vec3 := ⟨a.x - b.x, a.y - b.y, a.z - b.z⟩

/-- Vector-scalar multiplication, `operator*` of geometry.h. -/
def Vec3.smul (a : Vec3) (s : F) : Vec3 := ⟨a.x * s, a.y * s, a.z * s⟩

/-- Componentwise addition, `operator+` of geometry.h. -/
def Vec4.add (a b : Vec4) : Vec4 := ⟨a.x + b.x, a.y + b.y, a.z + b.z, a.w + b.w⟩

/-- Componentwise subtraction, `operator-` of geometry.h. -/
def Vec4.sub (a b : Vec4) : Vec4 := ⟨a.x - b.x, a.y - b.y, a.z - b.z, a.w - b.w⟩

/-- Vector-scalar multiplication, `operator*` of geometry.h. -/
def Vec4.smul (a : Vec4) (s : F) : Vec4 := ⟨a.x * s, a.y * s, a.z * s, a.w * s⟩

/-- Component access `operator[]` of `vec<4,float>`:
`i <= 0 ? x : (1 == i ? y : (2 == i ? z : w))`. -/
def Vec4.nth (v : Vec4) (i : ℕ) : F :=
  if i = 0 then v.x else if i = 1 then v.y else if i = 2 then v.z else v.w

/-- Component write through `operator[]` of `vec<4,float>`. -/
def Vec4.setNth (v : Vec4) (i : ℕ) (a : F) : Vec4 :=
  if i = 0 then { v with x := a }
  else if i = 1 then { v with y := a }
  else if i = 2 then { v with z := a }
  else { v with w := a }

/-- Cross product of `vec<3,T>` from geometry.h. -/
def cross (v1 v2 : Vec3) : Vec3 :=
  ⟨v1.y * v2.z - v1.z * v2.y, v1.z * v2.x - v1.x * v2.z, v1.x * v2.y - v1.y * v2.x⟩

/-- Extraction of the first two components, `proj<2>` from geometry.h. -/
def proj2 (v : Vec4) : Vec2 := ⟨v.x, v.y⟩

/-- C++ `float`-to-`int` conversion: truncation toward zero. -/
def ratTrunc (q : F) : ℤ := if 0 ≤ q then ⌊q⌋ else ⌈q⌉

/-- The `barycentric` function from geometry.h: solves for the barycentric
coordinates of P with respect to triangle ABC via a cross product, returning
the sentinel `(-1, 0, 0)` when the 2x2 denominator `u.z` is near zero. -/
def barycentric (A B C P : Vec2) : Vec3 :=
  let t0 : Vec3 := ⟨B.x - A.x, C.x - A.x, A.x - P.x⟩
  let t1 : Vec3 := ⟨B.y - A.y, C.y - A.y, A.y - P.y⟩
  let u := cross t0 t1
  if |u.z| < 1 / 100000 then ⟨-1, 0, 0⟩
  else ⟨1 - (u.x + u.y) / u.z, u.x / u.z, u.y / u.z⟩

/-- The constant `CNT_SAMPLE` from the main translation unit. -/
def CNT_SAMPLE : ℕ := 4

/-- The constant MSAA sample-offset table `D_MSAA` from the main translation
unit. -/
def D_MSAA : List (F × F) := [(1/4, 1/4), (1/4, 3/4), (3/4, 1/4), (3/4, 3/4)]

/-- The constant single-sample offset table `D_NonMSAA` from the main
translation unit. -/
def D_NonMSAA : List (F × F) := [(0, 0)]

/-- Offset of the pixel center used by the rasterizer `triangle()`: the
fragment shader is evaluated at `(x + 0.5f, y + 0.5f)`. -/
def pixelCenterOffset : F × F := (1/2, 1/2)

/-- Centers of the four quadrants of the unit pixel square: the quadrant in
row i, column j of `[0,1]²` has center `((2i+1)/4, (2j+1)/4)`.  This is the
description used by the specification for the MSAA offsets. -/
def quadrantCenters : List (F × F) :=
  ([0, 1] : List ℕ).flatMap fun i =>
    ([0, 1] : List ℕ).map fun j => (((2 * i + 1 : ℕ) : F) / 4, ((2 * j + 1 : ℕ) : F) / 4)

/-- Color and depth buffers of one pass, modelled as total functions from
(flat) sample-slot indices; `triangle()` receives them as raw pointers. -/
@[ext]
structure RState where
  color : ℤ → Vec3
  z : ℤ → F

/-- A fragment shader: from barycentric weights either a color or a discard
signal, abstracting `IShader::fragment`. -/
abbrev Frag := Vec3 → Option Vec3

/-- Bounding-box lower x bound of `triangle()`: start at `width-1`, take the
min with each vertex's truncated x, then clamp below by 0. -/
def bboxMinX (sc : Fin 3 → Vec4) (width : ℕ) : ℤ :=
  max 0 (min (min (min ((width : ℤ) - 1) (ratTrunc (sc 0).x)) (ratTrunc (sc 1).x))
    (ratTrunc (sc 2).x))

/-- Bounding-box lower y bound of `triangle()`. -/
def bboxMinY (sc : Fin 3 → Vec4) (height : ℕ) : ℤ :=
  max 0 (min (min (min ((height : ℤ) - 1) (ratTrunc (sc 0).y)) (ratTrunc (sc 1).y))
    (ratTrunc (sc 2).y))

/-- Bounding-box upper x bound of `triangle()`: start at 0, take the max with
each vertex's truncated x, then clamp above by `width-1`. -/
def bboxMaxX (sc : Fin 3 → Vec4) (width : ℕ) : ℤ :=
  min ((width : ℤ) - 1) (max (max (max 0 (ratTrunc (sc 0).x)) (ratTrunc (sc 1).x))
    (ratTrunc (sc 2).x))

/-- Bounding-box upper y bound of `triangle()`. -/
def bboxMaxY (sc : Fin 3 → Vec4) (height : ℕ) : ℤ :=
  min ((height : ℤ) - 1) (max (max (max 0 (ratTrunc (sc 0).y)) (ratTrunc (sc 1).y))
    (ratTrunc (sc 2).y))

/-- The inclusive integer range `[a, b]` as a list, empty when `b < a`. -/
def intRange (a b : ℤ) : List ℤ :=
  (List.range (b + 1 - a).toNat).map fun (k : ℕ) => a + (k : ℤ)

/-- Barycentric weights of the sample at offset `o` inside pixel `(x, y)`,
computed against the 2D projections of the three screen coordinates, as in
`triangle()`. -/
def sampleBar (sc : Fin 3 → Vec4) (x y : ℤ) (o : F × F) : Vec3 :=
  barycentric (proj2 (sc 0)) (proj2 (sc 1)) (proj2 (sc 2)) ⟨(x : F) + o.1, (y : F) + o.2⟩

/-- Perspective-corrected interpolated depth of a sample with barycentric
weights `bar`, as computed in `triangle()`: interpolate w, invert it, then
interpolate z and multiply. -/
def sampleDepth (sc : Fin 3 → Vec4) (bar : Vec3) : F :=
  let w := (sc 0).w * bar.x + (sc 1).w * bar.y + (sc 2).w * bar.z
  let winv := 1 / w
  ((sc 0).z * bar.x + (sc 1).z * bar.y + (sc 2).z * bar.z) * winv

/-- Buffer slot index of sample `i` of pixel `(x, y)`:
`cntSample * (y*width + x) + i`. -/
def sampleIdx (width cnt : ℕ) (x y : ℤ) (i : ℕ) : ℤ :=
  (cnt : ℤ) * (y * (width : ℤ) + x) + (i : ℤ)

/-- Barycentric weights of the pixel center `(x + 0.5, y + 0.5)`, used by
`triangle()` for the single per-pixel fragment evaluation. -/
def barMiddle (sc : Fin 3 → Vec4) (x y : ℤ) : Vec3 :=
  sampleBar sc x y pixelCenterOffset

/-- One iteration of the per-pixel sample loop of `triangle()`.  The extra
state components model the `covered`/`color` locals (as an `Option Vec3`) and
the `break` executed when the fragment shader rejects the pixel. -/
def pixelStep (frag : Frag) (sc : Fin 3 → Vec4) (width cnt : ℕ) (d : List (F × F))
    (x y : ℤ) (st : RState × Option Vec3 × Bool) (i : ℕ) : RState × Option Vec3 × Bool :=
  match st with
  | (s, cov, broke) =>
    if broke then (s, cov, broke)
    else
      let bar := sampleBar sc x y (d.getD i (0, 0))
      let z := sampleDepth sc bar
      let idx := sampleIdx width cnt x y i
      if bar.x < 0 ∨ bar.y < 0 ∨ bar.z < 0 ∨ z < s.z idx then (s, cov, broke)
      else
        match cov with
        | some c => (⟨Function.update s.color idx c, Function.update s.z idx z⟩, some c, broke)
        | none =>
          match frag (barMiddle sc x y) with
          | none => (s, none, true)
          | some c => (⟨Function.update s.color idx c, Function.update s.z idx z⟩, some c, broke)

/-- The full per-pixel sample loop of `triangle()` for pixel `(x, y)`. -/
def pixelRun (frag : Frag) (sc : Fin 3 → Vec4) (width cnt : ℕ) (d : List (F × F))
    (x y : ℤ) (s : RState) : RState :=
  ((List.range cnt).foldl (pixelStep frag sc width cnt d x y) (s, none, false)).1

/-- The pixels traversed by `triangle()`: the clamped bounding box, x in the
outer loop and y in the inner loop. -/
def triPixels (sc : Fin 3 → Vec4) (width height : ℕ) : List (ℤ × ℤ) :=
  (intRange (bboxMinX sc width) (bboxMaxX sc width)).flatMap fun x =>
    (intRange (bboxMinY sc height) (bboxMaxY sc height)).map fun y => (x, y)

/-- The samples traversed by `triangle()`, in traversal order. -/
def triSamples (sc : Fin 3 → Vec4) (width height cnt : ℕ) : List ((ℤ × ℤ) × ℕ) :=
  (triPixels sc width height).flatMap fun p => (List.range cnt).map fun i => (p, i)

/-- The rasterizer `triangle()` from geometry.h as a buffer transformer:
per pixel of the clamped bounding box, run the sample loop. -/
def triangleRun (frag : Frag) (sc : Fin 3 → Vec4) (width height cnt : ℕ)
    (d : List (F × F)) (s0 : RState) : RState :=
  (triPixels sc width height).foldl
    (fun s p => pixelRun frag sc width cnt d p.1 p.2 s) s0

/-- The per-sample-slot depth-test-and-overwrite update: the effect of one
sample of `triangle()` on the buffers, with the per-pixel fragment result
expressed directly (the fragment shader is a function of the pixel center
only). -/
def slotUpdate (frag : Frag) (sc : Fin 3 → Vec4) (width cnt : ℕ) (d : List (F × F))
    (s : RState) (t : (ℤ × ℤ) × ℕ) : RState :=
  let x := t.1.1
  let y := t.1.2
  let i := t.2
  let bar := sampleBar sc x y (d.getD i (0, 0))
  let z := sampleDepth sc bar
  let idx := sampleIdx width cnt x y i
  if bar.x < 0 ∨ bar.y < 0 ∨ bar.z < 0 ∨ z < s.z idx then s
  else
    match frag (barMiddle sc x y) with
    | none => s
    | some c => ⟨Function.update s.color idx c, Function.update s.z idx z⟩

theorem foldl_flatMap {α β γ : Type _} (g : α → List β) (f : γ → β → γ) (l : List α) (s : γ) :
    (l.flatMap g).foldl f s = l.foldl (fun s a => (g a).foldl f s) s := by
  induction l generalizing s with
  | nil => rfl
  | cons a t ih => simp [List.flatMap_cons, List.foldl_append, ih]

/-- Skip condition of one sample of `triangle()`: some barycentric weight is
negative, or the interpolated depth is strictly below the stored depth. -/
def skipCond (frag : Frag) (sc : Fin 3 → Vec4) (width cnt : ℕ) (d : List (F × F))
    (x y : ℤ) (s : RState) (i : ℕ) : Prop :=
  (sampleBar sc x y (d.getD i (0, 0))).x < 0 ∨ (sampleBar sc x y (d.getD i (0, 0))).y < 0 ∨
    (sampleBar sc x y (d.getD i (0, 0))).z < 0 ∨
    sampleDepth sc (sampleBar sc x y (d.getD i (0, 0))) < s.z (sampleIdx width cnt x y i)

/-- The buffer state after writing color `c` and the sample's depth into the
slot of sample `i` of pixel `(x, y)`. -/
def writeSlot (sc : Fin 3 → Vec4) (width cnt : ℕ) (d : List (F × F))
    (x y : ℤ) (s : RState) (i : ℕ) (c : Vec3) : RState :=
  ⟨Function.update s.color (sampleIdx width cnt x y i) c,
   Function.update s.z (sampleIdx width cnt x y i)
     (sampleDepth sc (sampleBar sc x y (d.getD i (0, 0))))⟩

theorem pixelStep_broke (frag : Frag) (sc : Fin 3 → Vec4) (width cnt : ℕ)
    (d : List (F × F)) (x y : ℤ) (s : RState) (cov : Option Vec3) (i : ℕ) :
    pixelStep frag sc width cnt d x y (s, cov, true) i = (s, cov, true) := by
  simp [pixelStep]

theorem pixelStep_skip (frag : Frag) (sc : Fin 3 → Vec4) (width cnt : ℕ)
    (d : List (F × F)) (x y : ℤ) (s : RState) (cov : Option Vec3) (i : ℕ)
    (h : skipCond frag sc width cnt d x y s i) :
    pixelStep frag sc width cnt d x y (s, cov, false) i = (s, cov, false) := by
  simp only [skipCond] at h
  simp only [pixelStep, Bool.false_eq_true, if_false]
  rw [if_pos h]

theorem pixelStep_covered (frag : Frag) (sc : Fin 3 → Vec4) (width cnt : ℕ)
    (d : List (F × F)) (x y : ℤ) (s : RState) (c : Vec3) (i : ℕ)
    (h : ¬ skipCond frag sc width cnt d x y s i) :
    pixelStep frag sc width cnt d x y (s, some c, false) i =
      (writeSlot sc width cnt d x y s i c, some c, false) := by
  simp only [skipCond] at h
  simp only [pixelStep, Bool.false_eq_true, if_false]
  rw [if_neg h]
  rfl

theorem pixelStep_first (frag : Frag) (sc : Fin 3 → Vec4) (width cnt : ℕ)
    (d : List (F × F)) (x y : ℤ) (s : RState) (i : ℕ)
    (h : ¬ skipCond frag sc width cnt d x y s i) :
    pixelStep frag sc width cnt d x y (s, none, false) i =
      (match frag (barMiddle sc x y) with
       | none => (s, none, true)
       | some c => (writeSlot sc width cnt d x y s i c, some c, false)) := by
  simp only [skipCond] at h
  simp only [pixelStep, Bool.false_eq_true, if_false]
  rw [if_neg h]
  rfl

theorem slotUpdate_skip (frag : Frag) (sc : Fin 3 → Vec4) (width cnt : ℕ)
    (d : List (F × F)) (x y : ℤ) (s : RState) (i : ℕ)
    (h : skipCond frag sc width cnt d x y s i) :
    slotUpdate frag sc width cnt d s ((x, y), i) = s := by
  simp only [skipCond] at h
  simp only [slotUpdate]
  rw [if_pos h]

theorem slotUpdate_accept (frag : Frag) (sc : Fin 3 → Vec4) (width cnt : ℕ)
    (d : List (F × F)) (x y : ℤ) (s : RState) (i : ℕ)
    (h : ¬ skipCond frag sc width cnt d x y s i) :
    slotUpdate frag sc width cnt d s ((x, y), i) =
      (match frag (barMiddle sc x y) with
       | none => s
       | some c => writeSlot sc width cnt d x y s i c) := by
  simp only [skipCond] at h
  simp only [slotUpdate]
  rw [if_neg h]
  rfl

/-- The per-pixel loop of `triangle()` with its `covered`/`break` bookkeeping
computes the same buffers as folding the per-slot update over the pixel's
sample indices, provided the bookkeeping state is consistent with the
fragment result of this pixel. -/
theorem pixelFold_eq_slotFold (frag : Frag) (sc : Fin 3 → Vec4) (width cnt : ℕ)
    (d : List (F × F)) (x y : ℤ) (is : List ℕ) (s : RState) (cov : Option Vec3) (broke : Bool)
    (hbroke : broke = true → frag (barMiddle sc x y) = none)
    (hcov : ∀ c, cov = some c → frag (barMiddle sc x y) = some c) :
    (is.foldl (pixelStep frag sc width cnt d x y) (s, cov, broke)).1 =
      is.foldl (fun s i => slotUpdate frag sc width cnt d s ((x, y), i)) s := by
  induction is generalizing s cov broke with
  | nil => rfl
  | cons i t ih =>
    simp only [List.foldl_cons]
    by_cases hb : broke = true
    · subst hb
      have hfrag := hbroke rfl
      rw [pixelStep_broke]
      have hslot : slotUpdate frag sc width cnt d s ((x, y), i) = s := by
        by_cases hskip : skipCond frag sc width cnt d x y s i
        · exact slotUpdate_skip frag sc width cnt d x y s i hskip
        · rw [slotUpdate_accept frag sc width cnt d x y s i hskip, hfrag]
      rw [hslot]
      exact ih s cov true hbroke hcov
    · have hb' : broke = false := by simpa using hb
      subst hb'
      by_cases hskip : skipCond frag sc width cnt d x y s i
      · rw [pixelStep_skip frag sc width cnt d x y s cov i hskip,
          slotUpdate_skip frag sc width cnt d x y s i hskip]
        exact ih s cov false hbroke hcov
      · rw [slotUpdate_accept frag sc width cnt d x y s i hskip]
        match hc : cov with
        | some c =>
          have hfrag := hcov c rfl
          rw [pixelStep_covered frag sc width cnt d x y s c i hskip, hfrag]
          exact ih _ (some c) false hbroke hcov
        | none =>
          rw [pixelStep_first frag sc width cnt d x y s i hskip]
          match hf : frag (barMiddle sc x y) with
          | none =>
            exact ih s none true (fun _ => hf) (fun c hc => by cases hc)
          | some c =>
            exact ih _ (some c) false hbroke (fun e he => by cases he; exact hf)

/-- `triangle()` computes exactly the fold of the per-slot update over its
sample list in traversal order. -/
theorem triangleRun_eq_slotFold (frag : Frag) (sc : Fin 3 → Vec4) (width height cnt : ℕ)
    (d : List (F × F)) (s0 : RState) :
    triangleRun frag sc width height cnt d s0 =
      (triSamples sc width height cnt).foldl (slotUpdate frag sc width cnt d) s0 := by
  unfold triangleRun triSamples
  rw [foldl_flatMap]
  have hfun : ∀ (s : RState) (p : ℤ × ℤ),
      pixelRun frag sc width cnt d p.1 p.2 s =
        ((List.range cnt).map fun i => (p, i)).foldl (slotUpdate frag sc width cnt d) s := by
    intro s p
    rw [List.foldl_map]
    exact pixelFold_eq_slotFold frag sc width cnt d p.1 p.2 (List.range cnt) s none false
      (by simp) (fun c hc => by cases hc)
  simp only [hfun]

theorem mem_intRange {a b x : ℤ} (h : x ∈ intRange a b) : a ≤ x ∧ x ≤ b := by
  unfold intRange at h
  rcases List.mem_map.1 h with ⟨k, hk, rfl⟩
  rw [List.mem_range] at hk
  omega

/-- Every pixel traversed by `triangle()` lies inside the raster. -/
theorem mem_triPixels {sc : Fin 3 → Vec4} {width height : ℕ} {p : ℤ × ℤ}
    (h : p ∈ triPixels sc width height) :
    0 ≤ p.1 ∧ p.1 < (width : ℤ) ∧ 0 ≤ p.2 ∧ p.2 < (height : ℤ) := by
  unfold triPixels at h
  simp only [List.mem_flatMap, List.mem_map] at h
  obtain ⟨x, hx, y, hy, rfl⟩ := h
  have h1 := mem_intRange hx
  have h2 := mem_intRange hy
  have hminx : 0 ≤ bboxMinX sc width := le_max_left 0 _
  have hmaxx : bboxMaxX sc width ≤ (width : ℤ) - 1 := min_le_left _ _
  have hminy : 0 ≤ bboxMinY sc height := le_max_left 0 _
  have hmaxy : bboxMaxY sc height ≤ (height : ℤ) - 1 := min_le_left _ _
  exact ⟨by omega, by omega, by omega, by omega⟩

/-- Every sample traversed by `triangle()` has an in-raster pixel and a sample
index below `cntSample`. -/
theorem mem_triSamples {sc : Fin 3 → Vec4} {width height cnt : ℕ} {t : (ℤ × ℤ) × ℕ}
    (h : t ∈ triSamples sc width height cnt) :
    0 ≤ t.1.1 ∧ t.1.1 < (width : ℤ) ∧ 0 ≤ t.1.2 ∧ t.1.2 < (height : ℤ) ∧ t.2 < cnt := by
  unfold triSamples at h
  simp only [List.mem_flatMap, List.mem_map] at h
  obtain ⟨p, hp, i, hi, rfl⟩ := h
  have := mem_triPixels hp
  simp only [List.mem_range] at hi
  exact ⟨this.1, this.2.1, this.2.2.1, this.2.2.2, hi⟩

/-- The buffer slot index of a sample, as a function of the sample. -/
def slotOf (width cnt : ℕ) (t : (ℤ × ℤ) × ℕ) : ℤ := sampleIdx width cnt t.1.1 t.1.2 t.2

theorem rowcol_inj {w x1 y1 x2 y2 : ℤ} (hx1 : 0 ≤ x1) (hx1w : x1 < w)
    (hx2 : 0 ≤ x2) (hx2w : x2 < w) (h : y1 * w + x1 = y2 * w + x2) :
    y1 = y2 ∧ x1 = x2 := by
  have hy : y1 = y2 := by
    rcases lt_trichotomy y1 y2 with hlt | heq | hgt
    · exfalso
      have key : (y1 + 1) * w ≤ y2 * w :=
        mul_le_mul_of_nonneg_right (by omega) (by omega)
      have e1 : (y1 + 1) * w = y1 * w + w := by ring
      linarith
    · exact heq
    · exfalso
      have key : (y2 + 1) * w ≤ y1 * w :=
        mul_le_mul_of_nonneg_right (by omega) (by omega)
      have e1 : (y2 + 1) * w = y2 * w + w := by ring
      linarith
  subst hy
  exact ⟨rfl, by linarith⟩

/-- Two traversed samples with the same buffer slot index are the same
sample. -/
theorem sampleIdx_inj {width cnt : ℕ} {x1 y1 x2 y2 : ℤ} {i1 i2 : ℕ}
    (hx1 : 0 ≤ x1) (hx1w : x1 < (width : ℤ)) (hx2 : 0 ≤ x2) (hx2w : x2 < (width : ℤ))
    (hi1 : i1 < cnt) (hi2 : i2 < cnt)
    (h : sampleIdx width cnt x1 y1 i1 = sampleIdx width cnt x2 y2 i2) :
    x1 = x2 ∧ y1 = y2 ∧ i1 = i2 := by
  unfold sampleIdx at h
  have hab : y1 * (width : ℤ) + x1 = y2 * (width : ℤ) + x2 := by
    set a := y1 * (width : ℤ) + x1 with ha
    set b := y2 * (width : ℤ) + x2 with hb
    rcases lt_trichotomy a b with hlt | heq | hgt
    · exfalso
      have key : (cnt : ℤ) * (a + 1) ≤ (cnt : ℤ) * b :=
        mul_le_mul_of_nonneg_left (by omega) (by omega)
      have e1 : (cnt : ℤ) * (a + 1) = (cnt : ℤ) * a + (cnt : ℤ) := by ring
      have hc1 : (i1 : ℤ) < (cnt : ℤ) := by exact_mod_cast hi1
      have hc2 : (0 : ℤ) ≤ (i2 : ℤ) := by positivity
      linarith
    · exact heq
    · exfalso
      have key : (cnt : ℤ) * (b + 1) ≤ (cnt : ℤ) * a :=
        mul_le_mul_of_nonneg_left (by omega) (by omega)
      have e1 : (cnt : ℤ) * (b + 1) = (cnt : ℤ) * b + (cnt : ℤ) := by ring
      have hc1 : (i2 : ℤ) < (cnt : ℤ) := by exact_mod_cast hi2
      have hc2 : (0 : ℤ) ≤ (i1 : ℤ) := by positivity
      linarith
  obtain ⟨hy, hx⟩ := rowcol_inj hx1 hx1w hx2 hx2w hab
  refine ⟨hx, hy, ?_⟩
  rw [hab] at h
  omega

theorem intRange_pairwise (a b : ℤ) : (intRange a b).Pairwise (· < ·) := by
  unfold intRange
  rw [List.pairwise_map]
  refine (List.pairwise_lt_range _).imp ?_
  intro k1 k2 h
  omega

/-- Distinct samples in the traversal of `triangle()` have distinct buffer
slot indices. -/
theorem triSamples_slots_pairwise (sc : Fin 3 → Vec4) (width height cnt : ℕ) :
    (triSamples sc width height cnt).Pairwise
      (fun a b => slotOf width cnt a ≠ slotOf width cnt b) := by
  have hne : (triSamples sc width height cnt).Pairwise (fun a b => a ≠ b) := by
    unfold triSamples triPixels
    rw [List.pairwise_flatMap]
    constructor
    · intro p hp
      rw [List.pairwise_map]
      exact (List.pairwise_lt_range cnt).imp (by intro i j hij; simp; omega)
    · have hpix : (triPixels sc width height).Pairwise (fun p q => p ≠ q) := by
        unfold triPixels
        rw [List.pairwise_flatMap]
        constructor
        · intro x hx
          rw [List.pairwise_map]
          exact (intRange_pairwise _ _).imp (by intro y1 y2 h12; simp; omega)
        · refine (intRange_pairwise _ _).imp ?_
          intro x1 x2 h12 p hp q hq
          simp only [List.mem_map] at hp hq
          obtain ⟨y1, _, rfl⟩ := hp
          obtain ⟨y2, _, rfl⟩ := hq
          simp
          omega
      unfold triPixels at hpix
      refine hpix.imp ?_
      intro p q hpq s hs t ht
      simp only [List.mem_map] at hs ht
      obtain ⟨i, _, rfl⟩ := hs
      obtain ⟨j, _, rfl⟩ := ht
      simp [hpq]
  refine hne.imp_of_mem ?_
  intro a b ha hb hab
  have hba := mem_triSamples ha
  have hbb := mem_triSamples hb
  intro heq
  obtain ⟨hx, hy, hi⟩ := sampleIdx_inj hba.1 hba.2.1 hbb.1 hbb.2.1 hba.2.2.2.2 hbb.2.2.2.2 heq
  apply hab
  obtain ⟨⟨ax, ay⟩, ai⟩ := a
  obtain ⟨⟨bx, by_⟩, bi⟩ := b
  simp only at hx hy hi
  simp [hx, hy, hi]

theorem skipCond_congr (frag : Frag) (sc : Fin 3 → Vec4) (width cnt : ℕ) (d : List (F × F))
    (x y : ℤ) (i : ℕ) {s s' : RState}
    (h : s'.z (sampleIdx width cnt x y i) = s.z (sampleIdx width cnt x y i)) :
    (skipCond frag sc width cnt d x y s' i ↔ skipCond frag sc width cnt d x y s i) := by
  unfold skipCond
  rw [h]

theorem slotUpdate_other (frag : Frag) (sc : Fin 3 → Vec4) (width cnt : ℕ) (d : List (F × F))
    (s : RState) (t : (ℤ × ℤ) × ℕ) (j : ℤ) (h : j ≠ slotOf width cnt t) :
    (slotUpdate frag sc width cnt d s t).z j = s.z j ∧
      (slotUpdate frag sc width cnt d s t).color j = s.color j := by
  obtain ⟨⟨x, y⟩, i⟩ := t
  by_cases hs : skipCond frag sc width cnt d x y s i
  · rw [slotUpdate_skip frag sc width cnt d x y s i hs]
    exact ⟨rfl, rfl⟩
  · rw [slotUpdate_accept frag sc width cnt d x y s i hs]
    cases hf : frag (barMiddle sc x y) with
    | none => exact ⟨rfl, rfl⟩
    | some c =>
      refine ⟨?_, ?_⟩ <;>
        simp only [writeSlot] <;>
        exact Function.update_noteq h _ _

theorem writeSlot_comm (sc : Fin 3 → Vec4) (width cnt : ℕ) (d : List (F × F))
    (xa ya xb yb : ℤ) (ia ib : ℕ) (ca cb : Vec3) (s : RState)
    (hab : sampleIdx width cnt xa ya ia ≠ sampleIdx width cnt xb yb ib) :
    writeSlot sc width cnt d xb yb (writeSlot sc width cnt d xa ya s ia ca) ib cb =
      writeSlot sc width cnt d xa ya (writeSlot sc width cnt d xb yb s ib cb) ia ca := by
  unfold writeSlot
  simp only [RState.mk.injEq]
  exact ⟨Function.update_comm hab _ _ _, Function.update_comm hab _ _ _⟩

/-- Per-slot updates at distinct slots commute. -/
theorem slotUpdate_comm (frag : Frag) (sc : Fin 3 → Vec4) (width cnt : ℕ) (d : List (F × F))
    (s : RState) (a b : (ℤ × ℤ) × ℕ) (hab : slotOf width cnt a ≠ slotOf width cnt b) :
    slotUpdate frag sc width cnt d (slotUpdate frag sc width cnt d s a) b =
      slotUpdate frag sc width cnt d (slotUpdate frag sc width cnt d s b) a := by
  obtain ⟨⟨xa, ya⟩, ia⟩ := a
  obtain ⟨⟨xb, yb⟩, ib⟩ := b
  simp only [slotOf] at hab
  have hza : ∀ s', (slotUpdate frag sc width cnt d s' ((xa, ya), ia)).z
      (sampleIdx width cnt xb yb ib) = s'.z (sampleIdx width cnt xb yb ib) :=
    fun s' => (slotUpdate_other frag sc width cnt d s' ((xa, ya), ia) _ (Ne.symm hab)).1
  have hzb : ∀ s', (slotUpdate frag sc width cnt d s' ((xb, yb), ib)).z
      (sampleIdx width cnt xa ya ia) = s'.z (sampleIdx width cnt xa ya ia) :=
    fun s' => (slotUpdate_other frag sc width cnt d s' ((xb, yb), ib) _ hab).1
  by_cases hsa : skipCond frag sc width cnt d xa ya s ia
  · -- a is skipped at s, hence also after b's update
    have hsa' : skipCond frag sc width cnt d xa ya
        (slotUpdate frag sc width cnt d s ((xb, yb), ib)) ia :=
      (skipCond_congr frag sc width cnt d xa ya ia (hzb s)).2 hsa
    rw [slotUpdate_skip frag sc width cnt d xa ya s ia hsa,
      slotUpdate_skip frag sc width cnt d xa ya _ ia hsa']
  · have hsa' : ¬ skipCond frag sc width cnt d xa ya
        (slotUpdate frag sc width cnt d s ((xb, yb), ib)) ia :=
      fun hc => hsa ((skipCond_congr frag sc width cnt d xa ya ia (hzb s)).1 hc)
    by_cases hsb : skipCond frag sc width cnt d xb yb s ib
    · have hsb' : skipCond frag sc width cnt d xb yb
          (slotUpdate frag sc width cnt d s ((xa, ya), ia)) ib :=
        (skipCond_congr frag sc width cnt d xb yb ib (hza s)).2 hsb
      rw [slotUpdate_skip frag sc width cnt d xb yb s ib hsb,
        slotUpdate_skip frag sc width cnt d xb yb _ ib hsb']
    · have hsb' : ¬ skipCond frag sc width cnt d xb yb
          (slotUpdate frag sc width cnt d s ((xa, ya), ia)) ib :=
        fun hc => hsb ((skipCond_congr frag sc width cnt d xb yb ib (hza s)).1 hc)
      cases hfa : frag (barMiddle sc xa ya) with
      | none =>
        have ea : slotUpdate frag sc width cnt d s ((xa, ya), ia) = s := by
          rw [slotUpdate_accept frag sc width cnt d xa ya s ia hsa, hfa]
        cases hfb : frag (barMiddle sc xb yb) with
        | none =>
          have eb : slotUpdate frag sc width cnt d s ((xb, yb), ib) = s := by
            rw [slotUpdate_accept frag sc width cnt d xb yb s ib hsb, hfb]
          rw [ea, eb, ea]
        | some cb =>
          have eb : slotUpdate frag sc width cnt d s ((xb, yb), ib) =
              writeSlot sc width cnt d xb yb s ib cb := by
            rw [slotUpdate_accept frag sc width cnt d xb yb s ib hsb, hfb]
          rw [ea, eb]
          rw [eb] at hsa'
          rw [slotUpdate_accept frag sc width cnt d xa ya _ ia hsa', hfa]
      | some ca =>
        have ea : slotUpdate frag sc width cnt d s ((xa, ya), ia) =
            writeSlot sc width cnt d xa ya s ia ca := by
          rw [slotUpdate_accept frag sc width cnt d xa ya s ia hsa, hfa]
        cases hfb : frag (barMiddle sc xb yb) with
        | none =>
          have eb : slotUpdate frag sc width cnt d s ((xb, yb), ib) = s := by
            rw [slotUpdate_accept frag sc width cnt d xb yb s ib hsb, hfb]
          rw [ea, eb]
          rw [ea] at hsb'
          rw [slotUpdate_accept frag sc width cnt d xb yb _ ib hsb', hfb, ea]
        | some cb =>
          have eb : slotUpdate frag sc width cnt d s ((xb, yb), ib) =
              writeSlot sc width cnt d xb yb s ib cb := by
            rw [slotUpdate_accept frag sc width cnt d xb yb s ib hsb, hfb]
          rw [ea, eb]
          rw [ea] at hsb'
          rw [eb] at hsa'
          rw [slotUpdate_accept frag sc width cnt d xb yb _ ib hsb', hfb,
            slotUpdate_accept frag sc width cnt d xa ya _ ia hsa', hfa]
          exact writeSlot_comm sc width cnt d xa ya xb yb ia ib ca cb s hab

theorem slotFold_untouched (frag : Frag) (sc : Fin 3 → Vec4) (width cnt : ℕ)
    (d : List (F × F)) (l : List ((ℤ × ℤ) × ℕ)) (s : RState) (j : ℤ)
    (h : ∀ t ∈ l, slotOf width cnt t ≠ j) :
    (l.foldl (slotUpdate frag sc width cnt d) s).z j = s.z j ∧
      (l.foldl (slotUpdate frag sc width cnt d) s).color j = s.color j := by
  induction l generalizing s with
  | nil => exact ⟨rfl, rfl⟩
  | cons a t ih =>
    simp only [List.foldl_cons]
    have ha := h a (List.mem_cons_self a t)
    have h1 := slotUpdate_other frag sc width cnt d s a j (Ne.symm ha)
    have h2 := ih (slotUpdate frag sc width cnt d s a)
      (fun u hu => h u (List.mem_cons_of_mem a hu))
    exact ⟨h2.1.trans h1.1, h2.2.trans h1.2⟩

/-- Effect of a single per-slot update on its own slot: the slot is
overwritten exactly when all barycentric weights are nonnegative, the new
depth is at least the stored depth, and the fragment shader accepts the
pixel. -/
theorem slotUpdate_self (frag : Frag) (sc : Fin 3 → Vec4) (width cnt : ℕ)
    (d : List (F × F)) (s : RState) (x y : ℤ) (i : ℕ) :
    ((slotUpdate frag sc width cnt d s ((x, y), i)).z (sampleIdx width cnt x y i) =
      if 0 ≤ (sampleBar sc x y (d.getD i (0, 0))).x ∧ 0 ≤ (sampleBar sc x y (d.getD i (0, 0))).y ∧
          0 ≤ (sampleBar sc x y (d.getD i (0, 0))).z ∧
          s.z (sampleIdx width cnt x y i) ≤ sampleDepth sc (sampleBar sc x y (d.getD i (0, 0))) ∧
          (frag (barMiddle sc x y)).isSome
      then sampleDepth sc (sampleBar sc x y (d.getD i (0, 0)))
      else s.z (sampleIdx width cnt x y i)) ∧
    ((slotUpdate frag sc width cnt d s ((x, y), i)).color (sampleIdx width cnt x y i) =
      if 0 ≤ (sampleBar sc x y (d.getD i (0, 0))).x ∧ 0 ≤ (sampleBar sc x y (d.getD i (0, 0))).y ∧
          0 ≤ (sampleBar sc x y (d.getD i (0, 0))).z ∧
          s.z (sampleIdx width cnt x y i) ≤ sampleDepth sc (sampleBar sc x y (d.getD i (0, 0))) ∧
          (frag (barMiddle sc x y)).isSome
      then (frag (barMiddle sc x y)).getD ⟨0, 0, 0⟩
      else s.color (sampleIdx width cnt x y i)) := by
  by_cases hs : skipCond frag sc width cnt d x y s i
  · rw [slotUpdate_skip frag sc width cnt d x y s i hs]
    unfold skipCond at hs
    have hcond : ¬ (0 ≤ (sampleBar sc x y (d.getD i (0, 0))).x ∧
        0 ≤ (sampleBar sc x y (d.getD i (0, 0))).y ∧
        0 ≤ (sampleBar sc x y (d.getD i (0, 0))).z ∧
        s.z (sampleIdx width cnt x y i) ≤ sampleDepth sc (sampleBar sc x y (d.getD i (0, 0))) ∧
        (frag (barMiddle sc x y)).isSome) := by
      rintro ⟨h1, h2, h3, h4, -⟩
      rcases hs with h | h | h | h <;> linarith
    rw [if_neg hcond, if_neg hcond]
    exact ⟨rfl, rfl⟩
  · unfold skipCond at hs
    push_neg at hs
    rw [slotUpdate_accept frag sc width cnt d x y s i (by unfold skipCond; push_neg; exact hs)]
    cases hf : frag (barMiddle sc x y) with
    | none => constructor <;> simp
    | some c =>
      constructor
      · rw [if_pos ⟨hs.1, hs.2.1, hs.2.2.1, hs.2.2.2, by simp⟩]
        exact Function.update_same _ _ _
      · rw [if_pos ⟨hs.1, hs.2.1, hs.2.2.1, hs.2.2.2, by simp⟩]
        exact Function.update_same _ _ _

/-- Value of a fold of per-slot updates at the slot of one of its samples,
when all samples in the list have pairwise distinct slots: the slot update
behaves as if applied directly to the initial buffers. -/
theorem slotFold_char (frag : Frag) (sc : Fin 3 → Vec4) (width cnt : ℕ)
    (d : List (F × F)) (l : List ((ℤ × ℤ) × ℕ))
    (hp : l.Pairwise (fun a b => slotOf width cnt a ≠ slotOf width cnt b))
    (x y : ℤ) (i : ℕ) (ht : ((x, y), i) ∈ l) (s0 : RState) :
    ((l.foldl (slotUpdate frag sc width cnt d) s0).z (sampleIdx width cnt x y i) =
      if 0 ≤ (sampleBar sc x y (d.getD i (0, 0))).x ∧ 0 ≤ (sampleBar sc x y (d.getD i (0, 0))).y ∧
          0 ≤ (sampleBar sc x y (d.getD i (0, 0))).z ∧
          s0.z (sampleIdx width cnt x y i) ≤ sampleDepth sc (sampleBar sc x y (d.getD i (0, 0))) ∧
          (frag (barMiddle sc x y)).isSome
      then sampleDepth sc (sampleBar sc x y (d.getD i (0, 0)))
      else s0.z (sampleIdx width cnt x y i)) ∧
    ((l.foldl (slotUpdate frag sc width cnt d) s0).color (sampleIdx width cnt x y i) =
      if 0 ≤ (sampleBar sc x y (d.getD i (0, 0))).x ∧ 0 ≤ (sampleBar sc x y (d.getD i (0, 0))).y ∧
          0 ≤ (sampleBar sc x y (d.getD i (0, 0))).z ∧
          s0.z (sampleIdx width cnt x y i) ≤ sampleDepth sc (sampleBar sc x y (d.getD i (0, 0))) ∧
          (frag (barMiddle sc x y)).isSome
      then (frag (barMiddle sc x y)).getD ⟨0, 0, 0⟩
      else s0.color (sampleIdx width cnt x y i)) := by
  induction l generalizing s0 with
  | nil => cases ht
  | cons a rest ih =>
    rw [List.pairwise_cons] at hp
    obtain ⟨ha, hrest⟩ := hp
    simp only [List.foldl_cons]
    rcases List.mem_cons.1 ht with heq | hmem
    · subst heq
      have huntouched := slotFold_untouched frag sc width cnt d rest
        (slotUpdate frag sc width cnt d s0 ((x, y), i)) (sampleIdx width cnt x y i)
        (fun u hu => Ne.symm (ha u hu))
      have hself := slotUpdate_self frag sc width cnt d s0 x y i
      exact ⟨huntouched.1.trans hself.1, huntouched.2.trans hself.2⟩
    · have hne : slotOf width cnt a ≠ sampleIdx width cnt x y i := ha _ hmem
      have hz := (slotUpdate_other frag sc width cnt d s0 a _ (Ne.symm hne)).1
      have hcol := (slotUpdate_other frag sc width cnt d s0 a _ (Ne.symm hne)).2
      have := ih hrest hmem (slotUpdate frag sc width cnt d s0 a)
      rw [hz, hcol] at this
      exact this

/-- The 2x2 barycentric denominator of a screen triangle: the z component of
the cross product computed inside `barycentric`, which depends only on the
three vertices. -/
def triDenom (sc : Fin 3 → Vec4) : F :=
  ((sc 1).x - (sc 0).x) * ((sc 2).y - (sc 0).y) - ((sc 2).x - (sc 0).x) * ((sc 1).y - (sc 0).y)

theorem barycentric_sentinel (A B C P : Vec2)
    (h : |(B.x - A.x) * (C.y - A.y) - (C.x - A.x) * (B.y - A.y)| < 1 / 100000) :
    barycentric A B C P = ⟨-1, 0, 0⟩ := by
  unfold barycentric cross
  rw [if_pos h]

theorem foldl_fixed {α β : Type _} (f : β → α → β) (l : List α) (s : β)
    (h : ∀ s a, f s a = s) : l.foldl f s = s := by
  induction l with
  | nil => rfl
  | cons a t ih => rw [List.foldl_cons, h]; exact ih

/-- A concrete fragment shader that always accepts with a fixed color. -/
def frag123 : Frag := fun _ => some ⟨1, 2, 3⟩

/-- A concrete screen triangle with vertices (0,0), (2,0), (0,2), constant
depth 5 and w = 1. -/
def scEq : Fin 3 → Vec4
  | 0 => ⟨0, 0, 5, 1⟩
  | 1 => ⟨2, 0, 5, 1⟩
  | 2 => ⟨0, 2, 5, 1⟩

/-- A concrete degenerate screen triangle: all three vertices coincide. -/
def scDeg : Fin 3 → Vec4
  | _ => ⟨0, 0, 0, 1⟩

/-- Concrete initial buffers: black color, depth 5 everywhere. -/
def s0Eq : RState := ⟨fun _ => ⟨0, 0, 0⟩, fun _ => 5⟩

theorem ratTrunc_zero : ratTrunc 0 = 0 := by norm_num [ratTrunc]

theorem ratTrunc_two : ratTrunc 2 = 2 := by norm_num [ratTrunc]

theorem sampleBar_scEq : sampleBar scEq 0 0 ((0 : F), (0 : F)) = ⟨1, 0, 0⟩ := by
  norm_num [sampleBar, barycentric, cross, proj2, scEq]

theorem sampleDepth_scEq : sampleDepth scEq ⟨1, 0, 0⟩ = 5 := by
  norm_num [sampleDepth, scEq]

theorem sampleIdx_eval : sampleIdx 1 1 0 0 0 = 0 := by norm_num [sampleIdx]

theorem triPixels_scEq_one : triPixels scEq 1 1 = [(0, 0)] := by
  norm_num [triPixels, bboxMinX, bboxMaxX, bboxMinY, bboxMaxY, intRange, ratTrunc, scEq,
    List.range_succ]

theorem triSamples_scEq_one : triSamples scEq 1 1 1 = [(((0 : ℤ), (0 : ℤ)), (0 : ℕ))] := by
  rw [triSamples, triPixels_scEq_one]
  norm_num [List.range_succ]

theorem skipCond_scEq_false : ¬ skipCond frag123 scEq 1 1 [(0, 0)] 0 0 s0Eq 0 := by
  unfold skipCond
  rw [show (([((0 : F), (0 : F))]).getD 0 (0, 0)) = ((0 : F), (0 : F)) from rfl,
    sampleBar_scEq, sampleDepth_scEq]
  norm_num [s0Eq]

theorem triangleRun_scEq_eval :
    triangleRun frag123 scEq 1 1 1 [(0, 0)] s0Eq =
      writeSlot scEq 1 1 [(0, 0)] 0 0 s0Eq 0 ⟨1, 2, 3⟩ := by
  rw [triangleRun_eq_slotFold, triSamples_scEq_one]
  simp only [List.foldl_cons, List.foldl_nil]
  rw [slotUpdate_accept frag123 scEq 1 1 [(0, 0)] 0 0 s0Eq 0 skipCond_scEq_false]
  rfl

/-- Claim C1, counterexample: in `triangle()` a sample whose interpolated
depth is exactly equal to the stored depth is NOT skipped: the depth test
only skips on strictly smaller depth (`z < zBuffer[idx]`), so an equal-depth
sample overwrites the color buffer.  Here the stored depth is 5 and the
interpolated depth of the accepted sample is also 5, yet the color changes
from black to (1,2,3) and the depth is (re)written. -/
theorem depth_equal_sample_overwrites :
    sampleDepth scEq (sampleBar scEq 0 0 ((0 : F), (0 : F))) = 5 ∧
    s0Eq.z 0 = 5 ∧ s0Eq.color 0 = ⟨0, 0, 0⟩ ∧
    (triangleRun frag123 scEq 1 1 1 [(0, 0)] s0Eq).color 0 = ⟨1, 2, 3⟩ ∧
    (triangleRun frag123 scEq 1 1 1 [(0, 0)] s0Eq).z 0 = 5 := by
  refine ⟨by rw [sampleBar_scEq]; exact sampleDepth_scEq, rfl, rfl, ?_, ?_⟩ <;>
    rw [triangleRun_scEq_eval] <;>
    simp only [writeSlot] <;>
    rw [show sampleIdx 1 1 0 0 0 = 0 from sampleIdx_eval]
  · exact Function.update_same _ _ _
  · rw [Function.update_same, show (([((0 : F), (0 : F))]).getD 0 (0, 0)) =
      ((0 : F), (0 : F)) from rfl, sampleBar_scEq]
    exact sampleDepth_scEq

/-- Claim C1, amended: in `triangle()` a traversed sample's buffer slot is
overwritten if and only if all its barycentric weights are nonnegative, the
pixel's fragment shader accepts, and the perspective-corrected interpolated
depth is greater than OR EQUAL to the stored depth (larger-is-closer); only a
strictly smaller depth is skipped, so an equal-depth sample does overwrite
color and depth. -/
theorem depth_test_ge_overwrites (frag : Frag) (sc : Fin 3 → Vec4) (width height cnt : ℕ)
    (d : List (F × F)) (s0 : RState) (x y : ℤ) (i : ℕ)
    (ht : ((x, y), i) ∈ triSamples sc width height cnt) :
    ((triangleRun frag sc width height cnt d s0).z (sampleIdx width cnt x y i) =
      if 0 ≤ (sampleBar sc x y (d.getD i (0, 0))).x ∧ 0 ≤ (sampleBar sc x y (d.getD i (0, 0))).y ∧
          0 ≤ (sampleBar sc x y (d.getD i (0, 0))).z ∧
          s0.z (sampleIdx width cnt x y i) ≤ sampleDepth sc (sampleBar sc x y (d.getD i (0, 0))) ∧
          (frag (barMiddle sc x y)).isSome
      then sampleDepth sc (sampleBar sc x y (d.getD i (0, 0)))
      else s0.z (sampleIdx width cnt x y i)) ∧
    ((triangleRun frag sc width height cnt d s0).color (sampleIdx width cnt x y i) =
      if 0 ≤ (sampleBar sc x y (d.getD i (0, 0))).x ∧ 0 ≤ (sampleBar sc x y (d.getD i (0, 0))).y ∧
          0 ≤ (sampleBar sc x y (d.getD i (0, 0))).z ∧
          s0.z (sampleIdx width cnt x y i) ≤ sampleDepth sc (sampleBar sc x y (d.getD i (0, 0))) ∧
          (frag (barMiddle sc x y)).isSome
      then (frag (barMiddle sc x y)).getD ⟨0, 0, 0⟩
      else s0.color (sampleIdx width cnt x y i)) := by
  rw [triangleRun_eq_slotFold]
  exact slotFold_char frag sc width cnt d (triSamples sc width height cnt)
    (triSamples_slots_pairwise sc width height cnt) x y i ht s0

/-- Witness for the amended claim C1 at a concrete input: the accepted
equal-depth sample ends with its interpolated depth (5) stored in the
buffer. -/
theorem depth_test_ge_overwrites_witness :
    (triangleRun frag123 scEq 1 1 1 [(0, 0)] s0Eq).z (sampleIdx 1 1 0 0 0) =
      sampleDepth scEq (sampleBar scEq 0 0 (([(0, 0)] : List (F × F)).getD 0 (0, 0))) := by
  have hmem : (((0 : ℤ), (0 : ℤ)), (0 : ℕ)) ∈ triSamples scEq 1 1 1 := by
    rw [triSamples_scEq_one]
    exact List.mem_singleton.2 rfl
  have h := (depth_test_ge_overwrites frag123 scEq 1 1 1 [(0, 0)] s0Eq 0 0 0 hmem).1
  rw [h, if_pos ?_]
  rw [show (([((0 : F), (0 : F))]).getD 0 (0, 0)) = ((0 : F), (0 : F)) from rfl,
    sampleBar_scEq, sampleDepth_scEq]
  refine ⟨by norm_num, by norm_num, by norm_num, ?_, rfl⟩
  show s0Eq.z (sampleIdx 1 1 0 0 0) ≤ 5
  rw [sampleIdx_eval]
  norm_num [s0Eq]

/-- Claim C3: the buffers produced by one call of `triangle()` are
independent of the traversal order of its samples: folding the per-slot
depth-test-and-overwrite update over ANY permutation of the traversed sample
list yields exactly the buffers produced by `triangle()` (which traverses in
bounding-box row-major order); the per-slot updates commute because distinct
samples own distinct slots. -/
theorem raster_order_independent (frag : Frag) (sc : Fin 3 → Vec4) (width height cnt : ℕ)
    (d : List (F × F)) (s0 : RState) (L : List ((ℤ × ℤ) × ℕ))
    (hL : L.Perm (triSamples sc width height cnt)) :
    L.foldl (slotUpdate frag sc width cnt d) s0 =
      triangleRun frag sc width height cnt d s0 := by
  rw [triangleRun_eq_slotFold]
  refine hL.foldl_eq' ?_ s0
  intro a ha b hb s
  have ha' : a ∈ triSamples sc width height cnt := hL.mem_iff.1 ha
  have hb' : b ∈ triSamples sc width height cnt := hL.mem_iff.1 hb
  by_cases hs : slotOf width cnt a = slotOf width cnt b
  · have hba := mem_triSamples ha'
    have hbb := mem_triSamples hb'
    obtain ⟨⟨xa, ya⟩, ia⟩ := a
    obtain ⟨⟨xb, yb⟩, ib⟩ := b
    obtain ⟨hx, hy, hi⟩ := sampleIdx_inj hba.1 hba.2.1 hbb.1 hbb.2.1
      hba.2.2.2.2 hbb.2.2.2.2 hs
    subst hx
    subst hy
    subst hi
    rfl
  · exact slotUpdate_comm frag sc width cnt d s a b hs

/-- Witness for claim C3: a 1x2 raster traversed in the reversed order ends
in the same buffers as the rasterizer's own traversal. -/
theorem triSamples_scEq_two : triSamples scEq 1 2 1 =
    [(((0 : ℤ), (0 : ℤ)), (0 : ℕ)), (((0 : ℤ), (1 : ℤ)), (0 : ℕ))] := by
  rw [triSamples]
  rw [show triPixels scEq 1 2 = [((0 : ℤ), (0 : ℤ)), ((0 : ℤ), (1 : ℤ))] from by
    norm_num [triPixels, bboxMinX, bboxMaxX, bboxMinY, bboxMaxY, intRange, ratTrunc, scEq,
      List.range_succ]
    decide]
  norm_num [List.range_succ]

/-- Witness for claim C3: a 1x2 raster traversed in the reversed order ends
in the same buffers as the rasterizer's own traversal. -/
theorem raster_order_independent_witness :
    [(((0 : ℤ), (1 : ℤ)), (0 : ℕ)), (((0 : ℤ), (0 : ℤ)), (0 : ℕ))].foldl
        (slotUpdate frag123 scEq 1 1 [(0, 0)]) s0Eq =
      triangleRun frag123 scEq 1 2 1 [(0, 0)] s0Eq :=
  raster_order_independent frag123 scEq 1 2 1 [(0, 0)] s0Eq _
    (by rw [triSamples_scEq_two]; exact List.Perm.swap _ _ [])

/-- Claim C6: when the 2x2 barycentric denominator is within 1e-5 of zero,
`barycentric` returns the sentinel weights (-1, 0, 0) for every sample point,
and rasterizing the degenerate triangle leaves the color and depth buffers
exactly unchanged (every sample is rejected by the negative-weight test). -/
theorem degenerate_triangle_draws_nothing (frag : Frag) (sc : Fin 3 → Vec4)
    (width height cnt : ℕ) (d : List (F × F)) (s0 : RState)
    (h : |triDenom sc| < 1 / 100000) :
    (∀ P : Vec2, barycentric (proj2 (sc 0)) (proj2 (sc 1)) (proj2 (sc 2)) P = ⟨-1, 0, 0⟩) ∧
      triangleRun frag sc width height cnt d s0 = s0 := by
  have hbar : ∀ P : Vec2,
      barycentric (proj2 (sc 0)) (proj2 (sc 1)) (proj2 (sc 2)) P = ⟨-1, 0, 0⟩ :=
    fun P => barycentric_sentinel _ _ _ P h
  refine ⟨hbar, ?_⟩
  rw [triangleRun_eq_slotFold]
  refine foldl_fixed _ _ _ ?_
  intro s t
  obtain ⟨⟨x, y⟩, i⟩ := t
  apply slotUpdate_skip
  unfold skipCond sampleBar
  rw [hbar]
  norm_num

/-- Witness for claim C6: the all-coincident triangle `scDeg` produces the
sentinel weights and draws nothing into a 2x2 raster. -/
theorem degenerate_triangle_draws_nothing_witness :
    barycentric (proj2 (scDeg 0)) (proj2 (scDeg 1)) (proj2 (scDeg 2)) ⟨7, 9⟩ = ⟨-1, 0, 0⟩ ∧
      triangleRun frag123 scDeg 2 2 1 [(0, 0)] s0Eq = s0Eq := by
  have h := degenerate_triangle_draws_nothing frag123 scDeg 2 2 1 [(0, 0)] s0Eq
    (by norm_num [triDenom, scDeg])
  exact ⟨h.1 ⟨7, 9⟩, h.2⟩

/-- Claim C10: for `triangle()` with positive raster dimensions and sample
count, every buffer index read or written (these are exactly the slots of the
traversed samples) lies in `[0, width * height * cntSample)`: the bounding
box is clamped into the raster before the loops run. -/
theorem triangle_indices_in_bounds (sc : Fin 3 → Vec4) (width height cnt : ℕ)
    (hw : 1 ≤ width) (hh : 1 ≤ height) (hc : 1 ≤ cnt) (t : (ℤ × ℤ) × ℕ)
    (ht : t ∈ triSamples sc width height cnt) :
    0 ≤ slotOf width cnt t ∧ slotOf width cnt t < (width : ℤ) * (height : ℤ) * (cnt : ℤ) := by
  obtain ⟨hx0, hxw, hy0, hyh, hicnt⟩ := mem_triSamples ht
  obtain ⟨⟨x, y⟩, i⟩ := t
  simp only at hx0 hxw hy0 hyh hicnt
  unfold slotOf sampleIdx
  simp only
  have hrow0 : 0 ≤ y * (width : ℤ) + x := by
    have := mul_nonneg hy0 (by positivity : (0 : ℤ) ≤ (width : ℤ))
    omega
  have hrowtop : y * (width : ℤ) + x ≤ (height : ℤ) * (width : ℤ) - 1 := by
    have key : y * (width : ℤ) ≤ ((height : ℤ) - 1) * (width : ℤ) :=
      mul_le_mul_of_nonneg_right (by omega) (by positivity)
    have e1 : ((height : ℤ) - 1) * (width : ℤ) = (height : ℤ) * (width : ℤ) - (width : ℤ) := by
      ring
    omega
  constructor
  · have := mul_nonneg (by positivity : (0 : ℤ) ≤ (cnt : ℤ)) hrow0
    have hi0 : (0 : ℤ) ≤ (i : ℤ) := by positivity
    omega
  · have key2 : (cnt : ℤ) * (y * (width : ℤ) + x) ≤
        (cnt : ℤ) * ((height : ℤ) * (width : ℤ) - 1) :=
      mul_le_mul_of_nonneg_left hrowtop (by positivity)
    have e2 : (cnt : ℤ) * ((height : ℤ) * (width : ℤ) - 1) =
        (cnt : ℤ) * (height : ℤ) * (width : ℤ) - (cnt : ℤ) := by ring
    have e3 : (width : ℤ) * (height : ℤ) * (cnt : ℤ) =
        (cnt : ℤ) * (height : ℤ) * (width : ℤ) := by ring
    have hic : (i : ℤ) < (cnt : ℤ) := by exact_mod_cast hicnt
    omega

/-- Witness for claim C10 at a concrete sample of a concrete triangle. -/
theorem triangle_indices_in_bounds_witness :
    0 ≤ slotOf 1 1 (((0 : ℤ), (0 : ℤ)), (0 : ℕ)) ∧
      slotOf 1 1 (((0 : ℤ), (0 : ℤ)), (0 : ℕ)) < ((1 : ℕ) : ℤ) * ((1 : ℕ) : ℤ) * ((1 : ℕ) : ℤ) :=
  triangle_indices_in_bounds scEq 1 1 1 (by decide) (by decide) (by decide) _
    (by rw [triSamples_scEq_one]; exact List.mem_singleton.2 rfl)

/-- The `Vertex` struct from gl.h: pipeline-internal vertex carrying normal,
world coordinate, clip coordinate and UV. -/
structure Vertex where
  normal : Vec3
  worldCoord : Vec4
  clipCoord : Vec4
  uv : Vec2
deriving DecidableEq, Repr, Inhabited

/-- The intersection vertex built by `pushIntersection` in geometry.h:
`t = (w0 - axis0) / ((w0 - axis0) - (w1 - axis1))`, the clip coordinate is
interpolated linearly, and world coordinate, normal and UV are interpolated
linearly and then multiplied by the w obtained by inverting the linearly
interpolated reciprocal w. -/
def intersectionVertex (now next : Vertex) (axis : ℕ) : Vertex :=
  let t0 := now.clipCoord.w - now.clipCoord.nth axis
  let t1 := next.clipCoord.w - next.clipCoord.nth axis
  let t := t0 / (t0 - t1)
  let winv := 1 / now.clipCoord.w + t * (1 / next.clipCoord.w - 1 / now.clipCoord.w)
  let w := 1 / winv
  { clipCoord := now.clipCoord.add ((next.clipCoord.sub now.clipCoord).smul t)
    worldCoord := (now.worldCoord.add ((next.worldCoord.sub now.worldCoord).smul t)).smul w
    normal := (now.normal.add ((next.normal.sub now.normal).smul t)).smul w
    uv := (now.uv.add ((next.uv.sub now.uv).smul t)).smul w }

/-- The position check of `singleFaceZClip`: `clipCoord[axis] / clipCoord.w`. -/
def clipCheck (v : Vertex) (axis : ℕ) : F := v.clipCoord.nth axis / v.clipCoord.w

/-- Contribution of one directed polygon edge to the output of
`singleFaceZClip`: keep `now` when its check is at most 1, and append the
intersection vertex when the edge crosses the plane. -/
def clipEdge (now next : Vertex) (axis : ℕ) : List Vertex :=
  (if clipCheck now axis ≤ 1 then [now] else []) ++
    (if (clipCheck now axis < 1 ∧ clipCheck next axis > 1) ∨
        (clipCheck now axis > 1 ∧ clipCheck next axis < 1)
     then [intersectionVertex now next axis] else [])

/-- The `singleFaceZClip` function from geometry.h: walk the edges
`(original[i], original[(i+1) % size])` in order, appending kept vertices and
synthesized intersection vertices. -/
def singleFaceZClip (original : List Vertex) (axis : ℕ) : List Vertex :=
  (List.range original.length).foldl
    (fun res i =>
      res ++ clipEdge (original.getD i default)
        (original.getD ((i + 1) % original.length) default) axis)
    []

/-- Negation of the selected clip coordinate axis, as performed in-place by
`homogeneousClip` between and after the two single-plane clips. -/
def negAxis (axis : ℕ) (v : Vertex) : Vertex :=
  { v with clipCoord := v.clipCoord.setNth axis (-(v.clipCoord.nth axis)) }

/-- The `homogeneousClip` function from geometry.h: clip against the positive
plane, negate the axis, clip again, and negate back. -/
def homogeneousClip (original : List Vertex) (axis : ℕ) : List Vertex :=
  let intermediate := (singleFaceZClip original axis).map (negAxis axis)
  (singleFaceZClip intermediate axis).map (negAxis axis)

theorem foldl_append_eq_flatMap {α β : Type _} (g : α → List β) (l : List α) (init : List β) :
    l.foldl (fun res a => res ++ g a) init = init ++ l.flatMap g := by
  induction l generalizing init with
  | nil => simp
  | cons a t ih => simp [List.flatMap_cons, ih]

theorem singleFaceZClip_eq_flatMap (original : List Vertex) (axis : ℕ) :
    singleFaceZClip original axis =
      (List.range original.length).flatMap
        (fun i => clipEdge (original.getD i default)
          (original.getD ((i + 1) % original.length) default) axis) := by
  unfold singleFaceZClip
  rw [foldl_append_eq_flatMap]
  rfl

theorem flatMap_congr_mem {α β : Type _} {l : List α} {f g : α → List β}
    (h : ∀ a ∈ l, f a = g a) : l.flatMap f = l.flatMap g := by
  induction l with
  | nil => rfl
  | cons a t ih =>
    simp only [List.flatMap_cons]
    rw [h a (List.mem_cons_self a t), ih (fun b hb => h b (List.mem_cons_of_mem a hb))]

theorem flatMap_singleton_eq_map {α β : Type _} (l : List α) (u : α → β) :
    (l.flatMap fun a => [u a]) = l.map u := by
  induction l with
  | nil => rfl
  | cons a t ih => simp [List.flatMap_cons, ih]

theorem range_map_getD {α : Type _} [Inhabited α] (l : List α) :
    ((List.range l.length).map fun i => l.getD i default) = l := by
  apply List.ext_getElem (by simp)
  intro i h1 h2
  rw [List.getElem_map, List.getElem_range, List.getD_eq_getElem l default h2]

theorem range_flatMap_getD {α : Type _} [Inhabited α] (l : List α) (f : ℕ → List α)
    (h : ∀ i ∈ List.range l.length, f i = [l.getD i default]) :
    (List.range l.length).flatMap f = l := by
  rw [flatMap_congr_mem h, flatMap_singleton_eq_map, range_map_getD]

theorem Vec4.nth_setNth_self (v : Vec4) (i : ℕ) (a : F) : (v.setNth i a).nth i = a := by
  unfold Vec4.setNth Vec4.nth
  split_ifs <;> rfl

theorem Vec4.setNth_setNth (v : Vec4) (i : ℕ) (a b : F) :
    (v.setNth i a).setNth i b = v.setNth i b := by
  unfold Vec4.setNth
  split_ifs <;> rfl

theorem Vec4.setNth_nth (v : Vec4) (i : ℕ) : v.setNth i (v.nth i) = v := by
  unfold Vec4.setNth Vec4.nth
  split_ifs <;> rfl

theorem Vec4.w_setNth (v : Vec4) (i : ℕ) (a : F) (h : i < 3) : (v.setNth i a).w = v.w := by
  unfold Vec4.setNth
  split_ifs <;> first | rfl | omega

theorem negAxis_negAxis (axis : ℕ) (v : Vertex) : negAxis axis (negAxis axis v) = v := by
  unfold negAxis
  simp only
  rw [Vec4.nth_setNth_self, neg_neg, Vec4.setNth_setNth, Vec4.setNth_nth]

theorem negAxis_nth (axis : ℕ) (v : Vertex) :
    (negAxis axis v).clipCoord.nth axis = -(v.clipCoord.nth axis) := by
  unfold negAxis
  exact Vec4.nth_setNth_self _ _ _

theorem negAxis_w (axis : ℕ) (v : Vertex) (h : axis < 3) :
    (negAxis axis v).clipCoord.w = v.clipCoord.w := by
  unfold negAxis
  exact Vec4.w_setNth _ _ _ h

theorem getD_mem {α : Type _} [Inhabited α] (l : List α) (i : ℕ) (h : i < l.length) :
    l.getD i default ∈ l := by
  rw [List.getD_eq_getElem l default h]
  exact l.getElem_mem h

/-- When every vertex checks at most 1 against the clip plane, the
single-plane clip keeps the polygon unchanged: every vertex is pushed and no
edge crosses the plane. -/
theorem singleFaceZClip_keep_all (original : List Vertex) (axis : ℕ)
    (h : ∀ v ∈ original, clipCheck v axis ≤ 1) :
    singleFaceZClip original axis = original := by
  rw [singleFaceZClip_eq_flatMap]
  apply range_flatMap_getD
  intro i hi
  rw [List.mem_range] at hi
  have hnow := h _ (getD_mem original i hi)
  have hnext := h _ (getD_mem original ((i + 1) % original.length)
    (Nat.mod_lt _ (by omega)))
  unfold clipEdge
  rw [if_pos hnow, if_neg ?_]
  · simp
  · rintro (⟨-, hgt⟩ | ⟨hgt, -⟩) <;> linarith

/-- When every vertex checks strictly above 1, the single-plane clip rejects
everything: nothing is pushed and no edge crosses the plane. -/
theorem singleFaceZClip_all_out (original : List Vertex) (axis : ℕ)
    (h : ∀ v ∈ original, 1 < clipCheck v axis) :
    singleFaceZClip original axis = [] := by
  rw [singleFaceZClip_eq_flatMap]
  have hconst : ∀ i ∈ List.range original.length,
      clipEdge (original.getD i default)
        (original.getD ((i + 1) % original.length) default) axis = [] := by
    intro i hi
    rw [List.mem_range] at hi
    have hnow := h _ (getD_mem original i hi)
    have hnext := h _ (getD_mem original ((i + 1) % original.length)
      (Nat.mod_lt _ (by omega)))
    unfold clipEdge
    rw [if_neg (by linarith), if_neg ?_]
    · rfl
    · rintro (⟨hlt, -⟩ | ⟨-, hlt⟩) <;> linarith
  rw [flatMap_congr_mem hconst]
  simp

theorem singleFaceZClip_nil (axis : ℕ) : singleFaceZClip [] axis = [] := rfl

/-- First half of claim C4: clipping a polygon whose vertices all lie inside
the canonical view volume (with positive w) returns it unchanged. -/
theorem homogeneousClip_inside_id (original : List Vertex) (axis : ℕ) (hax : axis < 3)
    (h : ∀ v ∈ original, 0 < v.clipCoord.w ∧
      -(v.clipCoord.w) ≤ v.clipCoord.nth axis ∧ v.clipCoord.nth axis ≤ v.clipCoord.w) :
    homogeneousClip original axis = original := by
  show List.map (negAxis axis)
    (singleFaceZClip ((singleFaceZClip original axis).map (negAxis axis)) axis) = original
  rw [singleFaceZClip_keep_all original axis (fun v hv => by
    obtain ⟨hw, h1, h2⟩ := h v hv
    exact (div_le_one hw).2 h2)]
  rw [singleFaceZClip_keep_all (original.map (negAxis axis)) axis (fun v hv => by
    rw [List.mem_map] at hv
    obtain ⟨u, hu, rfl⟩ := hv
    obtain ⟨hw, h1, h2⟩ := h u hu
    unfold clipCheck
    rw [negAxis_nth, negAxis_w axis u hax]
    exact (div_le_one hw).2 (by linarith))]
  rw [List.map_map]
  have : (negAxis axis ∘ negAxis axis) = id := by
    funext v
    exact negAxis_negAxis axis v
  rw [this, List.map_id]

/-- Membership of a clip-space point in the canonical view volume slab for
one axis: `-w ≤ axis-coordinate ≤ w`. -/
def clipInside (c : Vec4) (axis : ℕ) : Prop :=
  -(c.w) ≤ c.nth axis ∧ c.nth axis ≤ c.w

/-- Linear interpolation of clip coordinates along an edge, the
parametrization used by the clipper. -/
def lerpVec4 (a b : Vec4) (t : F) : Vec4 := a.add ((b.sub a).smul t)

theorem lerpVec4_nth (a b : Vec4) (t : F) (i : ℕ) :
    (lerpVec4 a b t).nth i = a.nth i + (b.nth i - a.nth i) * t := by
  unfold lerpVec4 Vec4.add Vec4.sub Vec4.smul Vec4.nth
  split_ifs <;> rfl

theorem lerpVec4_w (a b : Vec4) (t : F) : (lerpVec4 a b t).w = a.w + (b.w - a.w) * t := rfl

theorem lerpVec4_zero (a b : Vec4) : lerpVec4 a b 0 = a := by
  unfold lerpVec4 Vec4.add Vec4.sub Vec4.smul
  obtain ⟨x, y, z, w⟩ := a
  simp

theorem lerpVec4_one (a b : Vec4) : lerpVec4 a b 1 = b := by
  unfold lerpVec4 Vec4.add Vec4.sub Vec4.smul
  obtain ⟨x, y, z, w⟩ := a
  obtain ⟨x2, y2, z2, w2⟩ := b
  simp only [Vec4.mk.injEq]
  refine ⟨by ring, by ring, by ring, by ring⟩

/-- A linear function with values of strictly opposite signs at 0 and 1 has a
root in the unit interval. -/
theorem lerp_sign_change {f0 f1 : F} (h : f0 * f1 < 0) :
    ∃ t, 0 ≤ t ∧ t ≤ 1 ∧ f0 + (f1 - f0) * t = 0 := by
  have hprod : 0 < f0 * (f0 - f1) := by nlinarith [sq_nonneg f0]
  have hprod2 : 0 < (-f1) * (f0 - f1) := by nlinarith [sq_nonneg f1]
  have hne : f0 - f1 ≠ 0 := by
    intro h0
    rw [h0, mul_zero] at hprod
    exact lt_irrefl 0 hprod
  refine ⟨f0 / (f0 - f1), ?_, ?_, ?_⟩
  · exact le_of_lt (div_pos_iff.2 (mul_pos_iff.1 hprod))
  · have hpos2 : 0 < (-f1) / (f0 - f1) := div_pos_iff.2 (mul_pos_iff.1 hprod2)
    have hid : f0 / (f0 - f1) + (-f1) / (f0 - f1) = 1 := by
      rw [div_add_div_same, show f0 + -f1 = f0 - f1 from by ring]
      exact div_self hne
    linarith
  · field_simp
    ring

/-- A vertex strictly beyond the positive clip plane: `axis-coord > w`. -/
def aboveP (v : Vertex) (axis : ℕ) : Prop := v.clipCoord.w < v.clipCoord.nth axis

/-- A vertex strictly beyond the negative clip plane: `axis-coord < -w`. -/
def belowP (v : Vertex) (axis : ℕ) : Prop := v.clipCoord.nth axis < -(v.clipCoord.w)

/-- An edge that avoids the closed view volume cannot have its endpoints on
opposite sides of the slab (given positive w): both are above, or both are
below. -/
theorem edge_outside_same_side (now next : Vertex) (axis : ℕ)
    (hwn : 0 < now.clipCoord.w) (hwx : 0 < next.clipCoord.w)
    (hedge : ∀ t : F, 0 ≤ t → t ≤ 1 →
      ¬ clipInside (lerpVec4 now.clipCoord next.clipCoord t) axis) :
    (aboveP now axis ∧ aboveP next axis) ∨ (belowP now axis ∧ belowP next axis) := by
  have hout0 : ¬ clipInside now.clipCoord axis := by
    have := hedge 0 le_rfl zero_le_one
    rwa [lerpVec4_zero] at this
  have hout1 : ¬ clipInside next.clipCoord axis := by
    have := hedge 1 zero_le_one le_rfl
    rwa [lerpVec4_one] at this
  unfold clipInside at hout0 hout1
  push_neg at hout0 hout1
  have hside0 : aboveP now axis ∨ belowP now axis := by
    unfold aboveP belowP
    by_cases hcase : -(now.clipCoord.w) ≤ now.clipCoord.nth axis
    · exact Or.inl (hout0 hcase)
    · exact Or.inr (by linarith)
  have hside1 : aboveP next axis ∨ belowP next axis := by
    unfold aboveP belowP
    by_cases hcase : -(next.clipCoord.w) ≤ next.clipCoord.nth axis
    · exact Or.inl (hout1 hcase)
    · exact Or.inr (by linarith)
  -- rule out the mixed combinations via a zero of axis-coord + w on the edge
  have hmix : ∀ v1 v2 : Vertex, 0 < v1.clipCoord.w → 0 < v2.clipCoord.w →
      aboveP v1 axis → belowP v2 axis →
      ∃ t : F, 0 ≤ t ∧ t ≤ 1 ∧ clipInside (lerpVec4 v1.clipCoord v2.clipCoord t) axis := by
    intro v1 v2 hw1 hw2 hab hbe
    unfold aboveP at hab
    unfold belowP at hbe
    set f0 := v1.clipCoord.nth axis + v1.clipCoord.w with hf0
    set f1 := v2.clipCoord.nth axis + v2.clipCoord.w with hf1
    have hf0pos : 0 < f0 := by rw [hf0]; linarith
    have hf1neg : f1 < 0 := by rw [hf1]; linarith
    obtain ⟨t, ht0, ht1, hroot⟩ := lerp_sign_change (mul_neg_of_pos_of_neg hf0pos hf1neg)
    refine ⟨t, ht0, ht1, ?_, ?_⟩
    · rw [lerpVec4_nth, lerpVec4_w]
      rw [hf0, hf1] at hroot
      linarith
    · rw [lerpVec4_nth, lerpVec4_w]
      rw [hf0, hf1] at hroot
      nlinarith [ht0, ht1, hw1, hw2]
  rcases hside0 with h0 | h0 <;> rcases hside1 with h1 | h1
  · exact Or.inl ⟨h0, h1⟩
  · exfalso
    obtain ⟨t, ht0, ht1, hin⟩ := hmix now next hwn hwx h0 h1
    exact hedge t ht0 ht1 hin
  · exfalso
    -- below-then-above: reverse the edge direction with the substitution t ↦ 1 - t
    obtain ⟨t, ht0, ht1, hin⟩ := hmix next now hwx hwn h1 h0
    refine hedge (1 - t) (by linarith) (by linarith) ?_
    have : lerpVec4 now.clipCoord next.clipCoord (1 - t) =
        lerpVec4 next.clipCoord now.clipCoord t := by
      unfold lerpVec4 Vec4.add Vec4.sub Vec4.smul
      simp only [Vec4.mk.injEq]
      refine ⟨by ring, by ring, by ring, by ring⟩
    rwa [this]
  · exact Or.inr ⟨h0, h1⟩

/-- A polygon none of whose edges meets the closed view volume has all its
vertices on one side of the slab. -/
theorem polygon_outside_one_sided (original : List Vertex) (axis : ℕ)
    (hw : ∀ v ∈ original, 0 < v.clipCoord.w)
    (hedge : ∀ i, i < original.length → ∀ t : F, 0 ≤ t → t ≤ 1 →
      ¬ clipInside (lerpVec4 (original.getD i default).clipCoord
        (original.getD ((i + 1) % original.length) default).clipCoord t) axis) :
    (∀ i, i < original.length → aboveP (original.getD i default) axis) ∨
      (∀ i, i < original.length → belowP (original.getD i default) axis) := by
  rcases Nat.eq_zero_or_pos original.length with hz | hpos
  · exact Or.inl (fun i hi => absurd hi (by omega))
  have hpair : ∀ i, i < original.length →
      (aboveP (original.getD i default) axis ∧
        aboveP (original.getD ((i + 1) % original.length) default) axis) ∨
      (belowP (original.getD i default) axis ∧
        belowP (original.getD ((i + 1) % original.length) default) axis) := by
    intro i hi
    exact edge_outside_same_side _ _ axis
      (hw _ (getD_mem original i hi))
      (hw _ (getD_mem original _ (Nat.mod_lt _ (by omega))))
      (hedge i hi)
  have habs : ∀ v ∈ original, aboveP v axis → belowP v axis → False := by
    intro v hv ha hb
    have := hw v hv
    unfold aboveP at ha
    unfold belowP at hb
    linarith
  have hstep : ∀ i, i + 1 < original.length →
      aboveP (original.getD i default) axis →
      aboveP (original.getD (i + 1) default) axis := by
    intro i hi ha
    have := hpair i (by omega)
    rw [Nat.mod_eq_of_lt (by omega : i + 1 < original.length)] at this
    rcases this with ⟨-, h2⟩ | ⟨h1, -⟩
    · exact h2
    · exact absurd h1 (fun hb => habs _ (getD_mem original i (by omega)) ha hb)
  have hstepb : ∀ i, i + 1 < original.length →
      belowP (original.getD i default) axis →
      belowP (original.getD (i + 1) default) axis := by
    intro i hi hb
    have := hpair i (by omega)
    rw [Nat.mod_eq_of_lt (by omega : i + 1 < original.length)] at this
    rcases this with ⟨h1, -⟩ | ⟨-, h2⟩
    · exact absurd h1 (fun ha => habs _ (getD_mem original i (by omega)) ha hb)
    · exact h2
  have h0 := hpair 0 hpos
  rcases h0 with ⟨h0a, -⟩ | ⟨h0b, -⟩
  · left
    intro i hi
    induction i with
    | zero => exact h0a
    | succ n ih => exact hstep n hi (ih (by omega))
  · right
    intro i hi
    induction i with
    | zero => exact h0b
    | succ n ih => exact hstepb n hi (ih (by omega))

/-- Claim C4: homogeneousClip applied to a polygon of at least 3 vertices all
lying inside the canonical view volume (`-w ≤ axis ≤ w`, `w > 0`) returns the
polygon unchanged vertex-for-vertex; applied to a polygon lying entirely
outside that volume (positive w, and no point of any edge meets the closed
volume) it returns a result with fewer than 3 vertices (it is empty). -/
theorem homogeneousClip_inside_outside (original : List Vertex) (axis : ℕ) (hax : axis < 3) :
    ((3 ≤ original.length) →
      (∀ v ∈ original, 0 < v.clipCoord.w ∧
        -(v.clipCoord.w) ≤ v.clipCoord.nth axis ∧ v.clipCoord.nth axis ≤ v.clipCoord.w) →
      homogeneousClip original axis = original) ∧
    ((∀ v ∈ original, 0 < v.clipCoord.w) →
      (∀ i, i < original.length → ∀ t : F, 0 ≤ t → t ≤ 1 →
        ¬ clipInside (lerpVec4 (original.getD i default).clipCoord
          (original.getD ((i + 1) % original.length) default).clipCoord t) axis) →
      (homogeneousClip original axis).length < 3) := by
  constructor
  · intro _ h
    exact homogeneousClip_inside_id original axis hax h
  · intro hw hedge
    have hone := polygon_outside_one_sided original axis hw hedge
    have hmemidx : ∀ v ∈ original, ∃ i, ∃ h : i < original.length, original.getD i default = v := by
      intro v hv
      obtain ⟨i, hi, hEq⟩ := List.mem_iff_getElem.1 hv
      exact ⟨i, hi, by rw [List.getD_eq_getElem original default hi]; exact hEq⟩
    rcases hone with hall | hall
    · -- all vertices beyond the positive plane: the first clip empties the polygon
      have h1 : singleFaceZClip original axis = [] := by
        apply singleFaceZClip_all_out
        intro v hv
        obtain ⟨i, hi, rfl⟩ := hmemidx v hv
        have ha := hall i hi
        unfold aboveP at ha
        unfold clipCheck
        exact (one_lt_div (hw _ (getD_mem original i hi))).2 ha
      show ((singleFaceZClip ((singleFaceZClip original axis).map (negAxis axis)) axis).map
        (negAxis axis)).length < 3
      rw [h1]
      simp [singleFaceZClip_nil]
    · -- all vertices beyond the negative plane: the first clip keeps all,
      -- the second (after negation) empties
      have h1 : singleFaceZClip original axis = original := by
        apply singleFaceZClip_keep_all
        intro v hv
        obtain ⟨i, hi, rfl⟩ := hmemidx v hv
        have hb := hall i hi
        unfold belowP at hb
        have hwv := hw _ (getD_mem original i hi)
        unfold clipCheck
        exact (div_le_one hwv).2 (by linarith)
      have h2 : singleFaceZClip (original.map (negAxis axis)) axis = [] := by
        apply singleFaceZClip_all_out
        intro v hv
        rw [List.mem_map] at hv
        obtain ⟨u, hu, rfl⟩ := hv
        obtain ⟨i, hi, rfl⟩ := hmemidx u hu
        have hb := hall i hi
        unfold belowP at hb
        have hwv := hw _ (getD_mem original i hi)
        unfold clipCheck
        rw [negAxis_nth, negAxis_w axis _ hax]
        exact (one_lt_div hwv).2 (by linarith)
      show ((singleFaceZClip ((singleFaceZClip original axis).map (negAxis axis)) axis).map
        (negAxis axis)).length < 3
      rw [h1, h2]
      simp

/-- A concrete polygon inside the view volume: an axis-aligned square at
z = 0, w = 1. -/
def squareInside : List Vertex :=
  [⟨⟨0, 0, 0⟩, ⟨0, 0, 0, 1⟩, ⟨0, 0, 0, 1⟩, ⟨0, 0⟩⟩,
   ⟨⟨0, 0, 0⟩, ⟨1, 0, 0, 1⟩, ⟨1/2, 0, 0, 1⟩, ⟨0, 0⟩⟩,
   ⟨⟨0, 0, 0⟩, ⟨1, 1, 0, 1⟩, ⟨1/2, 1/2, 0, 1⟩, ⟨0, 0⟩⟩,
   ⟨⟨0, 0, 0⟩, ⟨0, 1, 0, 1⟩, ⟨0, 1/2, 0, 1⟩, ⟨0, 0⟩⟩]

/-- A concrete degenerate polygon entirely beyond the far plane: three copies
of one vertex with z = 5, w = 1. -/
def triOutside : List Vertex :=
  [⟨⟨0, 0, 0⟩, ⟨0, 0, 0, 1⟩, ⟨0, 0, 5, 1⟩, ⟨0, 0⟩⟩,
   ⟨⟨0, 0, 0⟩, ⟨0, 0, 0, 1⟩, ⟨0, 0, 5, 1⟩, ⟨0, 0⟩⟩,
   ⟨⟨0, 0, 0⟩, ⟨0, 0, 0, 1⟩, ⟨0, 0, 5, 1⟩, ⟨0, 0⟩⟩]

/-- Witness for claim C4: the inside square passes through the z clipper
unchanged, and the fully outside polygon is clipped to fewer than 3
vertices. -/
theorem homogeneousClip_inside_outside_witness :
    homogeneousClip squareInside 2 = squareInside ∧
      (homogeneousClip triOutside 2).length < 3 := by
  constructor
  · refine (homogeneousClip_inside_outside squareInside 2 (by omega)).1 (by norm_num [squareInside]) ?_
    intro v hv
    fin_cases hv <;> norm_num [Vec4.nth]
  · refine (homogeneousClip_inside_outside triOutside 2 (by omega)).2 (by
      intro v hv
      fin_cases hv <;> norm_num) ?_
    intro i hi t ht0 ht1
    have hi3 : i < 3 := by simpa [triOutside] using hi
    have hnow : triOutside.getD i default = ⟨⟨0, 0, 0⟩, ⟨0, 0, 0, 1⟩, ⟨0, 0, 5, 1⟩, ⟨0, 0⟩⟩ := by
      interval_cases i <;> rfl
    have hnext : triOutside.getD ((i + 1) % triOutside.length) default =
        ⟨⟨0, 0, 0⟩, ⟨0, 0, 0, 1⟩, ⟨0, 0, 5, 1⟩, ⟨0, 0⟩⟩ := by
      interval_cases i <;> rfl
    rw [hnow, hnext]
    unfold clipInside
    rw [lerpVec4_nth, lerpVec4_w]
    intro hin
    obtain ⟨-, h2⟩ := hin
    simp only [Vec4.nth] at h2
    norm_num at h2

/-- The interpolation parameter of `pushIntersection`:
`t = (w0 - axis0) / ((w0 - axis0) - (w1 - axis1))`. -/
def clipT (now next : Vertex) (axis : ℕ) : F :=
  (now.clipCoord.w - now.clipCoord.nth axis) /
    ((now.clipCoord.w - now.clipCoord.nth axis) - (next.clipCoord.w - next.clipCoord.nth axis))

/-- The perspective weight of `pushIntersection`: the inverse of the linearly
interpolated reciprocal w. -/
def clipW (now next : Vertex) (axis : ℕ) : F :=
  1 / (1 / now.clipCoord.w + clipT now next axis * (1 / next.clipCoord.w - 1 / now.clipCoord.w))

/-- Modelled from the spec's words (for comparison with the code): the
intersection vertex with the world coordinate, normal and UV each DIVIDED by
its endpoint's w, linearly interpolated at t, then multiplied by the w
obtained by inverting the linearly interpolated reciprocal w; the clip
coordinate is interpolated linearly. -/
def specIntersectionVertex (now next : Vertex) (axis : ℕ) : Vertex :=
  let t := clipT now next axis
  let w := clipW now next axis
  let w0 := now.clipCoord.w
  let w1 := next.clipCoord.w
  { clipCoord := now.clipCoord.add ((next.clipCoord.sub now.clipCoord).smul t)
    worldCoord := ((now.worldCoord.smul (1 / w0)).add
      (((next.worldCoord.smul (1 / w1)).sub (now.worldCoord.smul (1 / w0))).smul t)).smul w
    normal := ((now.normal.smul (1 / w0)).add
      (((next.normal.smul (1 / w1)).sub (now.normal.smul (1 / w0))).smul t)).smul w
    uv := ((now.uv.smul (1 / w0)).add
      (((next.uv.smul (1 / w1)).sub (now.uv.smul (1 / w0))).smul t)).smul w }

/-- A concrete clip edge endpoint on the near side, with w = 1. -/
def nowV : Vertex := ⟨⟨0, 0, 0⟩, ⟨0, 0, 0, 1⟩, ⟨0, 0, 0, 1⟩, ⟨0, 0⟩⟩

/-- A concrete clip edge endpoint beyond the clip plane, with w = 2. -/
def nextV : Vertex := ⟨⟨0, 0, 0⟩, ⟨5, 0, 0, 1⟩, ⟨0, 0, 6, 2⟩, ⟨0, 0⟩⟩

/-- Claim C2, counterexample: `pushIntersection` interpolates the world
coordinate (and UV and normal) LINEARLY on the raw attribute and multiplies
by the interpolated w; it does not first divide the attribute by its
endpoint's w.  On this edge (endpoint w values 1 and 2, t = 1/5, interpolated
w = 10/9) the code produces world x = 10/9 while the spec's
divide-interpolate-multiply recipe produces 5/9. -/
theorem pushIntersection_not_perspective_divided :
    (intersectionVertex nowV nextV 2).worldCoord.x = 10/9 ∧
    (specIntersectionVertex nowV nextV 2).worldCoord.x = 5/9 ∧
    intersectionVertex nowV nextV 2 ≠ specIntersectionVertex nowV nextV 2 := by
  have h1 : (intersectionVertex nowV nextV 2).worldCoord.x = 10/9 := by
    norm_num [intersectionVertex, nowV, nextV, Vec4.nth, Vec4.add, Vec4.sub, Vec4.smul]
  have h2 : (specIntersectionVertex nowV nextV 2).worldCoord.x = 5/9 := by
    norm_num [specIntersectionVertex, clipT, clipW, nowV, nextV, Vec4.nth, Vec4.add,
      Vec4.sub, Vec4.smul]
  refine ⟨h1, h2, ?_⟩
  intro heq
  rw [heq, h2] at h1
  norm_num at h1

/-- Claim C2 (amended): for every clipped edge, `pushIntersection` synthesizes
the intersection vertex at parameter `t = (w0-axis0)/((w0-axis0)-(w1-axis1))`,
interpolating the clip coordinate linearly at t; the world coordinate, normal
and UV are interpolated linearly at t on the raw attribute values (they are
NOT first divided by their endpoint's w) and then multiplied by the w
obtained by inverting the linearly interpolated reciprocal w.  When the edge
truly crosses the plane (the two plane distances differ) the synthesized clip
coordinate lies exactly on the clip plane `axis = w`. -/
theorem pushIntersection_formulas (now next : Vertex) (axis : ℕ) (hax : axis < 3)
    (hne : now.clipCoord.w - now.clipCoord.nth axis ≠
      next.clipCoord.w - next.clipCoord.nth axis) :
    (intersectionVertex now next axis).clipCoord =
      lerpVec4 now.clipCoord next.clipCoord (clipT now next axis) ∧
    (intersectionVertex now next axis).worldCoord =
      ⟨(now.worldCoord.x + (next.worldCoord.x - now.worldCoord.x) * clipT now next axis) *
          clipW now next axis,
        (now.worldCoord.y + (next.worldCoord.y - now.worldCoord.y) * clipT now next axis) *
          clipW now next axis,
        (now.worldCoord.z + (next.worldCoord.z - now.worldCoord.z) * clipT now next axis) *
          clipW now next axis,
        (now.worldCoord.w + (next.worldCoord.w - now.worldCoord.w) * clipT now next axis) *
          clipW now next axis⟩ ∧
    (intersectionVertex now next axis).normal =
      ⟨(now.normal.x + (next.normal.x - now.normal.x) * clipT now next axis) *
          clipW now next axis,
        (now.normal.y + (next.normal.y - now.normal.y) * clipT now next axis) *
          clipW now next axis,
        (now.normal.z + (next.normal.z - now.normal.z) * clipT now next axis) *
          clipW now next axis⟩ ∧
    (intersectionVertex now next axis).uv =
      ⟨(now.uv.x + (next.uv.x - now.uv.x) * clipT now next axis) * clipW now next axis,
        (now.uv.y + (next.uv.y - now.uv.y) * clipT now next axis) * clipW now next axis⟩ ∧
    (intersectionVertex now next axis).clipCoord.nth axis =
      (intersectionVertex now next axis).clipCoord.w := by
  refine ⟨rfl, rfl, rfl, rfl, ?_⟩
  have hplane : (intersectionVertex now next axis).clipCoord =
      lerpVec4 now.clipCoord next.clipCoord (clipT now next axis) := rfl
  rw [hplane, lerpVec4_nth, lerpVec4_w]
  have hAB : (now.clipCoord.w - now.clipCoord.nth axis) -
      (next.clipCoord.w - next.clipCoord.nth axis) ≠ 0 := sub_ne_zero_of_ne hne
  unfold clipT
  field_simp
  ring

/-- Witness for the amended claim C2: on the concrete crossing edge the
synthesized vertex lies exactly on the plane `z = w`. -/
theorem pushIntersection_formulas_witness :
    (intersectionVertex nowV nextV 2).clipCoord.nth 2 =
      (intersectionVertex nowV nextV 2).clipCoord.w :=
  (pushIntersection_formulas nowV nextV 2 (by omega)
    (by norm_num [nowV, nextV, Vec4.nth])).2.2.2.2

/-- The PCF loop offsets of `Shader::fragment`: `for (int d = -2; d < 2; d++)`. -/
def pcfDxs : List ℤ := [-2, -1, 0, 1]

/-- One iteration of the inner (dy) PCF loop of `Shader::fragment`: skip when
the truncated sample y is out of bounds, otherwise count the sample and add 1
to the shadow sum when the stored depth exceeds the fragment's light-space
depth plus the 0.005 bias. -/
def pcfInnerStep (lsp : Vec3) (buf : ℤ → F) (W H : ℕ) (sx : ℤ) (a : F × ℕ) (dy : ℤ) : F × ℕ :=
  let sy := ratTrunc (lsp.y + (dy : F))
  if sy < 0 ∨ (H : ℤ) ≤ sy then a
  else (if lsp.z + 1/200 < buf (sy * (W : ℤ) + sx) then a.1 + 1 else a.1, a.2 + 1)

/-- One iteration of the outer (dx) PCF loop of `Shader::fragment`: skip the
whole inner loop when the truncated sample x is out of bounds. -/
def pcfOuterStep (lsp : Vec3) (buf : ℤ → F) (W H : ℕ) (acc : F × ℕ) (dx : ℤ) : F × ℕ :=
  let sx := ratTrunc (lsp.x + (dx : F))
  if sx < 0 ∨ (W : ℤ) ≤ sx then acc
  else pcfDxs.foldl (pcfInnerStep lsp buf W H sx) acc

/-- The shadow-accumulation double loop of `Shader::fragment`, returning
`(shadow, cntSample)`. -/
def pcfAccum (lsp : Vec3) (buf : ℤ → F) (W H : ℕ) : F × ℕ :=
  pcfDxs.foldl (pcfOuterStep lsp buf W H) (0, 0)

/-- The shadow factor computed by `Shader::fragment`:
`shadow / cntSample`. -/
def codeShadowFactor (lsp : Vec3) (buf : ℤ → F) (W H : ℕ) : F :=
  (pcfAccum lsp buf W H).1 / ((pcfAccum lsp buf W H).2 : F)

/-- The 4x4 offset neighborhood of the PCF filter. -/
def pcfOffsets : List (ℤ × ℤ) := pcfDxs.flatMap fun dx => pcfDxs.map fun dy => (dx, dy)

/-- Truncated x coordinate of a PCF sample. -/
def pcfSampleX (lsp : Vec3) (o : ℤ × ℤ) : ℤ := ratTrunc (lsp.x + (o.1 : F))

/-- Truncated y coordinate of a PCF sample. -/
def pcfSampleY (lsp : Vec3) (o : ℤ × ℤ) : ℤ := ratTrunc (lsp.y + (o.2 : F))

/-- A PCF sample lies inside the shadow buffer. -/
def pcfInBoundsProp (lsp : Vec3) (W H : ℕ) (o : ℤ × ℤ) : Prop :=
  0 ≤ pcfSampleX lsp o ∧ pcfSampleX lsp o < (W : ℤ) ∧
    0 ≤ pcfSampleY lsp o ∧ pcfSampleY lsp o < (H : ℤ)

instance (lsp : Vec3) (W H : ℕ) (o : ℤ × ℤ) : Decidable (pcfInBoundsProp lsp W H o) := by
  unfold pcfInBoundsProp
  infer_instance

/-- Number of elements of a list satisfying a decidable predicate. -/
def countList {α : Type _} (p : α → Prop) [DecidablePred p] : List α → ℕ
  | [] => 0
  | a :: t => (if p a then 1 else 0) + countList p t

/-- Modelled from the spec's words: shadow factor = number of in-bounds
samples of the 4x4-offset neighborhood whose stored shadow-buffer depth is
closer (greater, larger-is-closer) than the fragment's light-space depth
MINUS the fixed bias 0.005, divided by the number of in-bounds samples. -/
def specShadowFactorMinusBias (lsp : Vec3) (buf : ℤ → F) (W H : ℕ) : F :=
  ((countList (fun o => pcfInBoundsProp lsp W H o ∧
      lsp.z - 1/200 < buf (pcfSampleY lsp o * (W : ℤ) + pcfSampleX lsp o)) pcfOffsets : ℕ) : F) /
    ((countList (pcfInBoundsProp lsp W H) pcfOffsets : ℕ) : F)

/-- The spec formula with the bias sign corrected: stored depth closer
(greater) than the fragment's light-space depth PLUS the fixed bias 0.005. -/
def specShadowFactorPlusBias (lsp : Vec3) (buf : ℤ → F) (W H : ℕ) : F :=
  ((countList (fun o => pcfInBoundsProp lsp W H o ∧
      lsp.z + 1/200 < buf (pcfSampleY lsp o * (W : ℤ) + pcfSampleX lsp o)) pcfOffsets : ℕ) : F) /
    ((countList (pcfInBoundsProp lsp W H) pcfOffsets : ℕ) : F)

theorem countList_cons {α : Type _} (p : α → Prop) [DecidablePred p] (a : α) (t : List α) :
    countList p (a :: t) = (if p a then 1 else 0) + countList p t := rfl

theorem countList_append {α : Type _} (p : α → Prop) [DecidablePred p] (l1 l2 : List α) :
    countList p (l1 ++ l2) = countList p l1 + countList p l2 := by
  induction l1 with
  | nil => simp [countList]
  | cons a t ih => simp [countList, ih]; omega

theorem countList_map {α β : Type _} (p : β → Prop) [DecidablePred p] (f : α → β)
    (l : List α) : countList p (l.map f) = countList (fun a => p (f a)) l := by
  induction l with
  | nil => rfl
  | cons a t ih => simp [countList, ih]

theorem countList_congr {α : Type _} {p q : α → Prop} [DecidablePred p] [DecidablePred q]
    {l : List α} (h : ∀ a ∈ l, p a ↔ q a) : countList p l = countList q l := by
  induction l with
  | nil => rfl
  | cons a t ih =>
    unfold countList
    rw [ih (fun b hb => h b (List.mem_cons_of_mem a hb))]
    by_cases hpa : p a
    · rw [if_pos hpa, if_pos ((h a (List.mem_cons_self a t)).1 hpa)]
    · rw [if_neg hpa, if_neg (fun hqa => hpa ((h a (List.mem_cons_self a t)).2 hqa))]

theorem countList_false {α : Type _} {p : α → Prop} [DecidablePred p]
    {l : List α} (h : ∀ a ∈ l, ¬ p a) : countList p l = 0 := by
  induction l with
  | nil => rfl
  | cons a t ih =>
    unfold countList
    rw [if_neg (h a (List.mem_cons_self a t)), ih (fun b hb => h b (List.mem_cons_of_mem a hb))]

theorem pcf_inner_eq (lsp : Vec3) (buf : ℤ → F) (W H : ℕ) (sx : ℤ) (dys : List ℤ)
    (s : F) (c : ℕ) :
    dys.foldl (pcfInnerStep lsp buf W H sx) (s, c) =
      (s + (countList (fun (dy : ℤ) => ¬ (ratTrunc (lsp.y + (dy : F)) < 0 ∨
          (H : ℤ) ≤ ratTrunc (lsp.y + (dy : F))) ∧
          lsp.z + 1/200 < buf (ratTrunc (lsp.y + (dy : F)) * (W : ℤ) + sx)) dys : ℕ),
       c + countList (fun (dy : ℤ) => ¬ (ratTrunc (lsp.y + (dy : F)) < 0 ∨
          (H : ℤ) ≤ ratTrunc (lsp.y + (dy : F)))) dys) := by
  induction dys generalizing s c with
  | nil => simp [countList]
  | cons dy t ih =>
    rw [List.foldl_cons]
    by_cases hout : ratTrunc (lsp.y + (dy : F)) < 0 ∨ (H : ℤ) ≤ ratTrunc (lsp.y + (dy : F))
    · have hstep : pcfInnerStep lsp buf W H sx (s, c) dy = (s, c) := by
        simp only [pcfInnerStep]
        rw [if_pos hout]
      rw [hstep, ih, countList_cons, countList_cons,
        if_neg (fun hand => hand.1 hout), if_neg (fun hn => hn hout)]
      simp only [Nat.zero_add]
    · by_cases hcond : lsp.z + 1/200 < buf (ratTrunc (lsp.y + (dy : F)) * (W : ℤ) + sx)
      · have hstep : pcfInnerStep lsp buf W H sx (s, c) dy = (s + 1, c + 1) := by
          simp only [pcfInnerStep]
          rw [if_neg hout, if_pos hcond]
        rw [hstep, ih, countList_cons, countList_cons, if_pos ⟨hout, hcond⟩, if_pos hout,
          Prod.mk.injEq]
        constructor
        · push_cast
          ring
        · omega
      · have hstep : pcfInnerStep lsp buf W H sx (s, c) dy = (s, c + 1) := by
          simp only [pcfInnerStep]
          rw [if_neg hout, if_neg hcond]
        rw [hstep, ih, countList_cons, countList_cons,
        if_neg (fun hand => hcond hand.2), if_pos hout, Prod.mk.injEq]
        constructor
        · push_cast
          ring
        · omega

theorem pcf_outer_eq (lsp : Vec3) (buf : ℤ → F) (W H : ℕ) (dxs : List ℤ)
    (s : F) (c : ℕ) :
    dxs.foldl (pcfOuterStep lsp buf W H) (s, c) =
      (s + (countList (fun o => pcfInBoundsProp lsp W H o ∧
          lsp.z + 1/200 < buf (pcfSampleY lsp o * (W : ℤ) + pcfSampleX lsp o))
          (dxs.flatMap fun dx => pcfDxs.map fun dy => (dx, dy)) : ℕ),
       c + countList (pcfInBoundsProp lsp W H)
          (dxs.flatMap fun dx => pcfDxs.map fun dy => (dx, dy))) := by
  induction dxs generalizing s c with
  | nil => simp [countList]
  | cons dx rest ih =>
    rw [List.foldl_cons, List.flatMap_cons, countList_append, countList_append,
      countList_map, countList_map]
    by_cases hxout : ratTrunc (lsp.x + (dx : F)) < 0 ∨ (W : ℤ) ≤ ratTrunc (lsp.x + (dx : F))
    · have hstep : pcfOuterStep lsp buf W H (s, c) dx = (s, c) := by
        simp only [pcfOuterStep]
        rw [if_pos hxout]
      have hz1 : countList (fun dy => pcfInBoundsProp lsp W H (dx, dy) ∧
          lsp.z + 1/200 < buf (pcfSampleY lsp (dx, dy) * (W : ℤ) + pcfSampleX lsp (dx, dy)))
          pcfDxs = 0 := by
        apply countList_false
        intro dy _
        rintro ⟨⟨h1, h2, -, -⟩, -⟩
        unfold pcfSampleX at h1 h2
        dsimp only at h1 h2
        rcases hxout with h | h <;> omega
      have hz2 : countList (fun dy => pcfInBoundsProp lsp W H (dx, dy)) pcfDxs = 0 := by
        apply countList_false
        intro dy _
        rintro ⟨h1, h2, -, -⟩
        unfold pcfSampleX at h1 h2
        dsimp only at h1 h2
        rcases hxout with h | h <;> omega
      rw [hstep, ih, hz1, hz2]
      simp
    · have hstep : pcfOuterStep lsp buf W H (s, c) dx =
          pcfDxs.foldl (pcfInnerStep lsp buf W H (ratTrunc (lsp.x + (dx : F)))) (s, c) := by
        simp only [pcfOuterStep]
        rw [if_neg hxout]
      rw [hstep, pcf_inner_eq, ih]
      have hxin1 : 0 ≤ ratTrunc (lsp.x + (dx : F)) := by omega
      have hxin2 : ratTrunc (lsp.x + (dx : F)) < (W : ℤ) := by omega
      have hc1 : countList (fun dy => pcfInBoundsProp lsp W H (dx, dy) ∧
          lsp.z + 1/200 < buf (pcfSampleY lsp (dx, dy) * (W : ℤ) + pcfSampleX lsp (dx, dy)))
          pcfDxs =
          countList (fun (dy : ℤ) => ¬ (ratTrunc (lsp.y + (dy : F)) < 0 ∨
            (H : ℤ) ≤ ratTrunc (lsp.y + (dy : F))) ∧
            lsp.z + 1/200 < buf (ratTrunc (lsp.y + (dy : F)) * (W : ℤ) +
              ratTrunc (lsp.x + (dx : F)))) pcfDxs := by
        apply countList_congr
        intro dy _
        unfold pcfInBoundsProp pcfSampleX pcfSampleY
        dsimp only
        constructor
        · rintro ⟨⟨-, -, h3, h4⟩, h5⟩
          exact ⟨by omega, h5⟩
        · rintro ⟨h34, h5⟩
          exact ⟨⟨hxin1, hxin2, by omega, by omega⟩, h5⟩
      have hc2 : countList (fun dy => pcfInBoundsProp lsp W H (dx, dy)) pcfDxs =
          countList (fun (dy : ℤ) => ¬ (ratTrunc (lsp.y + (dy : F)) < 0 ∨
            (H : ℤ) ≤ ratTrunc (lsp.y + (dy : F)))) pcfDxs := by
        apply countList_congr
        intro dy _
        unfold pcfInBoundsProp pcfSampleX pcfSampleY
        dsimp only
        constructor
        · rintro ⟨-, -, h3, h4⟩
          omega
        · intro h34
          exact ⟨hxin1, hxin2, by omega, by omega⟩
      rw [hc1, hc2, Prod.mk.injEq]
      constructor
      · push_cast
        ring
      · omega

/-- Claim C5 (amended): the shadow factor computed by the Phong shader equals
the number of in-bounds samples of the 4x4-offset neighborhood around the
projected light-space position whose stored shadow-buffer depth is closer
(greater) than the fragment's light-space depth PLUS the fixed bias 0.005,
divided by the number of in-bounds samples of that neighborhood. -/
theorem shadow_factor_pcf (lsp : Vec3) (buf : ℤ → F) (W H : ℕ) :
    codeShadowFactor lsp buf W H = specShadowFactorPlusBias lsp buf W H := by
  unfold codeShadowFactor pcfAccum specShadowFactorPlusBias pcfOffsets
  rw [pcf_outer_eq]
  simp only [zero_add]

/-- Claim C5, counterexample: with the light-space position at the origin, a
1x1 shadow buffer holding depth 0, and fragment depth 0, the code computes
shadow factor 0 (the test is `z + 0.005 < stored`), while the claim's
formula with the bias SUBTRACTED computes 1 (`stored > z - 0.005` holds). -/
theorem shadow_factor_bias_sign :
    codeShadowFactor ⟨0, 0, 0⟩ (fun _ => 0) 1 1 = 0 ∧
    specShadowFactorMinusBias ⟨0, 0, 0⟩ (fun _ => 0) 1 1 = 1 ∧
    codeShadowFactor ⟨0, 0, 0⟩ (fun _ => 0) 1 1 ≠
      specShadowFactorMinusBias ⟨0, 0, 0⟩ (fun _ => 0) 1 1 := by
  have hplus : codeShadowFactor ⟨0, 0, 0⟩ (fun _ => 0) 1 1 = 0 := by
    unfold codeShadowFactor pcfAccum
    rw [pcf_outer_eq]
    norm_num [countList, pcfOffsets, pcfDxs, pcfInBoundsProp, pcfSampleX, pcfSampleY,
      ratTrunc, Int.floor_intCast, Int.ceil_intCast, Int.ceil_neg]
  have hminus : specShadowFactorMinusBias ⟨0, 0, 0⟩ (fun _ => 0) 1 1 = 1 := by
    unfold specShadowFactorMinusBias
    norm_num [countList, pcfOffsets, pcfDxs, pcfInBoundsProp, pcfSampleX, pcfSampleY,
      ratTrunc, Int.floor_intCast, Int.ceil_intCast, Int.ceil_neg]
  refine ⟨hplus, hminus, ?_⟩
  rw [hplus, hminus]
  norm_num

/-- The `dot` function from geometry.h on row vectors. -/
def dotq {n : ℕ} (a b : Fin n → ℚ) : ℚ := ∑ i, a i * b i

/-- Matrix multiplication from geometry.h:
`result[i][j] = dot(lhs[i], rhs.col(j))`. -/
def codeMatMul {m n k : ℕ} (A : Matrix (Fin m) (Fin n) ℚ) (B : Matrix (Fin n) (Fin k) ℚ) :
    Matrix (Fin m) (Fin k) ℚ :=
  fun i j => dotq (A i) (fun t => B t j)

/-- The cofactor sign `(row + col) % 2 ? -1 : 1` from geometry.h. -/
def cofSign (r c : ℕ) : ℚ := if (r + c) % 2 = 1 then -1 else 1

/-- The `get_minor` function from geometry.h: remove row r and column c;
`ret[i][j] = rows[i < row ? i : i+1][j < col ? j : j+1]`. -/
def codeMinor {n : ℕ} (A : Matrix (Fin (n + 1)) (Fin (n + 1)) ℚ) (r c : Fin (n + 1)) :
    Matrix (Fin n) (Fin n) ℚ :=
  fun i j => A (r.succAbove i) (c.succAbove j)

/-- The recursive determinant of geometry.h (`struct dt`): expansion along
the first row, with the 1x1 specialization as base case.  The generic 0x0
instantiation (reached from the 1x1 cofactor) runs an empty loop and returns
0. -/
def codeDet : {n : ℕ} → Matrix (Fin n) (Fin n) ℚ → ℚ
  | 0, _ => 0
  | 1, A => A 0 0
  | (n + 2), A => ∑ i : Fin (n + 2), A 0 i * (codeDet (codeMinor A 0 i) * cofSign 0 i.val)

/-- The `cofactor` function from geometry.h:
`get_minor(row, col).det() * ((row + col) % 2 ? -1 : 1)`. -/
def codeCofactor {n : ℕ} (A : Matrix (Fin (n + 1)) (Fin (n + 1)) ℚ) (r c : Fin (n + 1)) : ℚ :=
  codeDet (codeMinor A r c) * cofSign r.val c.val

/-- The `adjugate` function from geometry.h: the (untransposed) cofactor
matrix `ret[i][j] = cofactor(i, j)`. -/
def codeAdjugate : {n : ℕ} → Matrix (Fin n) (Fin n) ℚ → Matrix (Fin n) (Fin n) ℚ
  | 0, _ => fun i _ => i.elim0
  | _ + 1, A => fun i j => codeCofactor A i j

/-- The `invert_transpose` function from geometry.h: the cofactor matrix
divided entrywise by `dot(adjugate[0], rows[0])` (the first-row Laplace
expansion of the determinant). -/
def codeInvertTranspose : {n : ℕ} → Matrix (Fin n) (Fin n) ℚ → Matrix (Fin n) (Fin n) ℚ
  | 0, _ => fun i _ => i.elim0
  | _ + 1, A => fun i j => codeAdjugate A i j / dotq (codeAdjugate A 0) (A 0)

/-- The `invert` function from geometry.h: `invert_transpose().transpose()`. -/
def codeInvert {n : ℕ} (A : Matrix (Fin n) (Fin n) ℚ) : Matrix (Fin n) (Fin n) ℚ :=
  fun i j => codeInvertTranspose A j i

theorem cofSign_eq (r c : ℕ) : cofSign r c = (-1 : ℚ) ^ (r + c) := by
  unfold cofSign
  rcases Nat.even_or_odd (r + c) with he | ho
  · rw [if_neg (by rw [Nat.even_iff] at he; omega), Even.neg_one_pow he]
  · rw [if_pos (Nat.odd_iff.1 ho), Odd.neg_one_pow ho]

theorem codeMinor_eq_submatrix {n : ℕ} (A : Matrix (Fin (n + 1)) (Fin (n + 1)) ℚ)
    (r c : Fin (n + 1)) : codeMinor A r c = A.submatrix r.succAbove c.succAbove := rfl

/-- The recursive first-row expansion of geometry.h computes the true
determinant for every nonempty square matrix. -/
theorem codeDet_eq_det : ∀ {n : ℕ} (A : Matrix (Fin (n + 1)) (Fin (n + 1)) ℚ),
    codeDet A = A.det := by
  intro n
  induction n with
  | zero =>
    intro A
    rw [Matrix.det_fin_one]
    rfl
  | succ m ih =>
    intro A
    rw [show codeDet A =
      ∑ i : Fin (m + 2), A 0 i * (codeDet (codeMinor A 0 i) * cofSign 0 i.val) from rfl]
    rw [Matrix.det_succ_row_zero]
    refine Finset.sum_congr rfl fun i _ => ?_
    rw [ih (codeMinor A 0 i), codeMinor_eq_submatrix, cofSign_eq, Fin.succAbove_zero]
    rw [Nat.zero_add]
    ring

/-- The `tmp` divisor of `invert_transpose` equals the determinant, for
matrices of size at least 2. -/
theorem dotq_adjugate_row_eq_det {n : ℕ} (A : Matrix (Fin (n + 2)) (Fin (n + 2)) ℚ) :
    dotq (codeAdjugate A 0) (A 0) = A.det := by
  unfold dotq
  rw [Matrix.det_succ_row_zero]
  refine Finset.sum_congr rfl fun k _ => ?_
  rw [show codeAdjugate A 0 k = codeCofactor A 0 k from rfl]
  unfold codeCofactor
  rw [codeDet_eq_det (codeMinor A 0 k), codeMinor_eq_submatrix, cofSign_eq,
    Fin.succAbove_zero, Fin.val_zero, Nat.zero_add]
  ring

/-- The transposed cofactor matrix of geometry.h is the mathematical
adjugate, for matrices of size at least 2. -/
theorem codeAdjugate_transpose_eq_adjugate {n : ℕ} (A : Matrix (Fin (n + 2)) (Fin (n + 2)) ℚ)
    (i j : Fin (n + 2)) : codeAdjugate A j i = A.adjugate i j := by
  rw [Matrix.adjugate_fin_succ_eq_det_submatrix]
  rw [show codeAdjugate A j i = codeCofactor A j i from rfl]
  unfold codeCofactor
  rw [codeDet_eq_det (codeMinor A j i), codeMinor_eq_submatrix, cofSign_eq]
  ring

/-- Claim C7 (amended): for every non-singular square matrix that is not
1x1, multiplying by the cofactor-expansion inverse of geometry.h yields the
identity exactly (over exact-field scalars).  The generic template applied to
a 1x1 matrix divides by the zero produced by the unspecialized 0x0
determinant base case, so the 1x1 case must be excluded; the program only
instantiates `invert` at sizes 2 and 4. -/
theorem matrix_invert_identity {n : ℕ} (A : Matrix (Fin n) (Fin n) ℚ) (hn : n ≠ 1)
    (hdet : codeDet A ≠ 0) : codeMatMul A (codeInvert A) = 1 := by
  match n, A with
  | 0, A =>
    funext i
    exact i.elim0
  | 1, A => exact absurd rfl hn
  | (m + 2), A =>
    have hdet2 : A.det ≠ 0 := by
      rwa [codeDet_eq_det A] at hdet
    have hinv : codeInvert A = A.det⁻¹ • A.adjugate := by
      funext i j
      show codeInvertTranspose A j i = _
      rw [show codeInvertTranspose A j i =
        codeAdjugate A j i / dotq (codeAdjugate A 0) (A 0) from rfl]
      rw [dotq_adjugate_row_eq_det, codeAdjugate_transpose_eq_adjugate]
      rw [Matrix.smul_apply, smul_eq_mul, div_eq_inv_mul]
    have hmul : codeMatMul A (codeInvert A) = A * codeInvert A := by
      funext i j
      rw [Matrix.mul_apply]
      rfl
    rw [hmul, hinv, Matrix.mul_smul, Matrix.mul_adjugate, smul_smul,
      inv_mul_cancel₀ hdet2, one_smul]

/-- Claim C7, counterexample: the generic cofactor-expansion `invert` applied
to the non-singular 1x1 matrix [[1]] does not yield the identity: the 0x0
determinant base case of the template returns 0, so the adjugate is [[0]],
`tmp` is 0, and the product is the zero matrix. -/
theorem matrix_invert_one_by_one_fails :
    codeDet (fun _ _ => (1 : ℚ) : Matrix (Fin 1) (Fin 1) ℚ) = 1 ∧
    codeMatMul (fun _ _ => (1 : ℚ) : Matrix (Fin 1) (Fin 1) ℚ)
        (codeInvert (fun _ _ => (1 : ℚ))) ≠ 1 := by
  constructor
  · rfl
  · intro h
    have h00 := congrFun (congrFun h 0) 0
    rw [show codeMatMul (fun _ _ => (1 : ℚ) : Matrix (Fin 1) (Fin 1) ℚ)
        (codeInvert (fun _ _ => (1 : ℚ))) 0 0 =
        ∑ i : Fin 1, 1 * codeInvertTranspose (fun _ _ => (1 : ℚ) : Matrix (Fin 1) (Fin 1) ℚ) 0 i
        from rfl] at h00
    rw [Fin.sum_univ_one] at h00
    rw [show codeInvertTranspose (fun _ _ => (1 : ℚ) : Matrix (Fin 1) (Fin 1) ℚ) 0 0 =
        codeAdjugate (fun _ _ => (1 : ℚ) : Matrix (Fin 1) (Fin 1) ℚ) 0 0 /
          dotq (codeAdjugate (fun _ _ => (1 : ℚ) : Matrix (Fin 1) (Fin 1) ℚ) 0)
            (fun _ => (1 : ℚ)) from rfl] at h00
    have hadj : codeAdjugate (fun _ _ => (1 : ℚ) : Matrix (Fin 1) (Fin 1) ℚ) 0 0 = 0 := by
      show codeCofactor (fun _ _ => (1 : ℚ) : Matrix (Fin 1) (Fin 1) ℚ) 0 0 = 0
      unfold codeCofactor
      rw [show codeDet (codeMinor (fun _ _ => (1 : ℚ) : Matrix (Fin 1) (Fin 1) ℚ) 0 0) = 0
        from rfl]
      norm_num
    rw [hadj] at h00
    rw [zero_div, mul_zero, Matrix.one_apply_eq] at h00
    exact absurd h00.symm one_ne_zero

/-- The 2x2 identity matrix as a concrete input. -/
def mat2 : Matrix (Fin 2) (Fin 2) ℚ := fun i j => if i = j then 1 else 0

theorem codeDet_mat2 : codeDet mat2 = 1 := by
  rw [show codeDet mat2 =
    ∑ i : Fin 2, mat2 0 i * (codeDet (codeMinor mat2 0 i) * cofSign 0 i.val) from rfl]
  rw [Fin.sum_univ_two]
  rw [show codeDet (codeMinor mat2 0 0) = codeMinor mat2 0 0 0 0 from rfl,
    show codeDet (codeMinor mat2 0 1) = codeMinor mat2 0 1 0 0 from rfl]
  norm_num [codeMinor, mat2, cofSign, Fin.succAbove]

/-- Witness for the amended claim C7 at the concrete 2x2 identity matrix. -/
theorem matrix_invert_identity_witness : codeMatMul mat2 (codeInvert mat2) = 1 :=
  matrix_invert_identity mat2 (by omega) (by rw [codeDet_mat2]; norm_num)

/-- The raster resolution constants of the main translation unit. -/
def SCREEN_WIDTH : ℕ := 800

/-- The raster resolution constants of the main translation unit. -/
def SCREEN_HEIGHT : ℕ := 800

/-- The sentinel written by main() into every depth slot:
`-std::numeric_limits<float>::max()`, the most negative FINITE
single-precision value, `-(2^128 - 2^104)`. -/
def negMaxFloat : F := -(2 ^ 128 - 2 ^ 104)

/-- The depth-buffer initialization loop of main(): for every pixel i below
`pixels` and every sample j below `samples`, write the sentinel into slot
`samples * i + j` of the buffer (whose prior contents are arbitrary,
modelling the uninitialized `new float[]` allocation). -/
def initDepthBuffer (b : ℕ → F) (pixels samples : ℕ) : ℕ → F :=
  (List.range pixels).foldl
    (fun buf i =>
      (List.range samples).foldl
        (fun bufInner j => Function.update bufInner (samples * i + j) negMaxFloat) buf)
    b

/-- The shadow depth-buffer initialization of main():
`shadowZBuffer[i] = -max` for every i below `pixels`. -/
def initShadowBuffer (b : ℕ → F) (pixels : ℕ) : ℕ → F :=
  (List.range pixels).foldl (fun buf i => Function.update buf i negMaxFloat) b

theorem initInner_eval (b : ℕ → F) (samples i : ℕ) : ∀ (m : ℕ) (k : ℕ),
    ((List.range m).foldl
      (fun bufInner j => Function.update bufInner (samples * i + j) negMaxFloat) b) k =
      if samples * i ≤ k ∧ k < samples * i + m then negMaxFloat else b k := by
  intro m
  induction m with
  | zero =>
    intro k
    rw [List.range_zero, List.foldl_nil, if_neg (by omega)]
  | succ p ih =>
    intro k
    rw [List.range_succ, List.foldl_append, List.foldl_cons, List.foldl_nil]
    by_cases hk : k = samples * i + p
    · subst hk
      rw [Function.update_same, if_pos (by omega)]
    · rw [Function.update_noteq hk, ih k]
      by_cases hin : samples * i ≤ k ∧ k < samples * i + p
      · rw [if_pos hin, if_pos (by omega)]
      · rw [if_neg hin, if_neg (by omega)]

theorem initDepthBuffer_eval (b : ℕ → F) (samples : ℕ) : ∀ (pixels k : ℕ),
    initDepthBuffer b pixels samples k =
      if k < pixels * samples then negMaxFloat else b k := by
  intro pixels
  unfold initDepthBuffer
  induction pixels with
  | zero =>
    intro k
    rw [List.range_zero, List.foldl_nil, if_neg (by omega)]
  | succ p ih =>
    intro k
    rw [List.range_succ, List.foldl_append, List.foldl_cons, List.foldl_nil]
    rw [initInner_eval _ samples p samples k]
    have e1 : (p + 1) * samples = samples * p + samples := by ring
    have e2 : p * samples = samples * p := by ring
    by_cases hk : samples * p ≤ k ∧ k < samples * p + samples
    · rw [if_pos hk, if_pos (by omega)]
    · rw [if_neg hk, ih k]
      push_neg at hk
      by_cases hin : k < p * samples
      · rw [if_pos hin, if_pos (by omega)]
      · rw [if_neg hin, if_neg (by
          intro hcon
          have h1 : samples * p ≤ k := by omega
          have h2 := hk h1
          omega)]

theorem initShadowBuffer_eval (b : ℕ → F) : ∀ (pixels k : ℕ),
    initShadowBuffer b pixels k = if k < pixels then negMaxFloat else b k := by
  intro pixels
  unfold initShadowBuffer
  induction pixels with
  | zero =>
    intro k
    rw [List.range_zero, List.foldl_nil, if_neg (by omega)]
  | succ p ih =>
    intro k
    rw [List.range_succ, List.foldl_append, List.foldl_cons, List.foldl_nil]
    by_cases hk : k = p
    · subst hk
      rw [Function.update_same, if_pos (by omega)]
    · rw [Function.update_noteq hk, ih k]
      by_cases hin : k < p
      · rw [if_pos hin, if_pos (by omega)]
      · rw [if_neg hin, if_neg (by omega)]

/-- A value is an actual negative infinity (a bottom element): nothing is
below it.  No finite value, and in particular no rational, satisfies this. -/
def IsBottomValue (q : F) : Prop := ∀ r : F, q ≤ r

/-- Claim C8, counterexample: the sentinel that main() stores in every depth
slot before drawing is `-FLT_MAX = -(2^128 - 2^104)`, the most negative
FINITE single-precision value, not negative infinity: a strictly smaller
depth value exists. -/
theorem depth_sentinel_not_infinity :
    initDepthBuffer (fun _ => 0) (SCREEN_WIDTH * SCREEN_HEIGHT) CNT_SAMPLE 0 = negMaxFloat ∧
    ¬ IsBottomValue
      (initDepthBuffer (fun _ => 0) (SCREEN_WIDTH * SCREEN_HEIGHT) CNT_SAMPLE 0) := by
  have heval : initDepthBuffer (fun _ => 0) (SCREEN_WIDTH * SCREEN_HEIGHT) CNT_SAMPLE 0 =
      negMaxFloat := by
    rw [initDepthBuffer_eval, if_pos (by norm_num [SCREEN_WIDTH, SCREEN_HEIGHT, CNT_SAMPLE])]
  refine ⟨heval, ?_⟩
  rw [heval]
  intro hbot
  have := hbot (negMaxFloat - 1)
  norm_num at this

/-- Claim C8 (amended): before any triangle is drawn in a pass, every slot of
that pass's depth buffer (a flat array of length width * height *
samples-per-pixel; the shadow pass uses one sample per pixel) holds the
sentinel empty depth `-FLT_MAX` (the most negative finite float,
`-(2^128 - 2^104)`), not negative infinity. -/
theorem depth_buffers_initialized (b bs : ℕ → F) (idx jdx : ℕ)
    (h : idx < SCREEN_WIDTH * SCREEN_HEIGHT * CNT_SAMPLE)
    (hj : jdx < SCREEN_WIDTH * SCREEN_HEIGHT) :
    initDepthBuffer b (SCREEN_WIDTH * SCREEN_HEIGHT) CNT_SAMPLE idx = negMaxFloat ∧
    initShadowBuffer bs (SCREEN_WIDTH * SCREEN_HEIGHT) jdx = negMaxFloat := by
  constructor
  · rw [initDepthBuffer_eval, if_pos (by
      norm_num [SCREEN_WIDTH, SCREEN_HEIGHT, CNT_SAMPLE] at h ⊢
      omega)]
  · rw [initShadowBuffer_eval, if_pos hj]

/-- Witness for the amended claim C8 at slot 0 of both buffers. -/
theorem depth_buffers_initialized_witness :
    initDepthBuffer (fun _ => 0) (SCREEN_WIDTH * SCREEN_HEIGHT) CNT_SAMPLE 0 = negMaxFloat ∧
    initShadowBuffer (fun _ => 7) (SCREEN_WIDTH * SCREEN_HEIGHT) 0 = negMaxFloat :=
  depth_buffers_initialized (fun _ => 0) (fun _ => 7) 0 0
    (by norm_num [SCREEN_WIDTH, SCREEN_HEIGHT, CNT_SAMPLE])
    (by norm_num [SCREEN_WIDTH, SCREEN_HEIGHT])

/-- Claim C9, counterexample: the single entry of the non-MSAA offset table
is (0, 0), the pixel's integer-coordinate corner, NOT the pixel center: the
rasterizer's own pixel center lies at offset (0.5, 0.5). -/
theorem nonmsaa_offset_not_center :
    D_NonMSAA.getD 0 (0, 0) = ((0 : F), (0 : F)) ∧
    pixelCenterOffset = ((1/2 : F), (1/2 : F)) ∧
    D_NonMSAA.getD 0 (0, 0) ≠ pixelCenterOffset := by
  refine ⟨rfl, rfl, ?_⟩
  intro h
  rw [show D_NonMSAA.getD 0 (0, 0) = ((0 : F), (0 : F)) from rfl] at h
  unfold pixelCenterOffset at h
  have := congrArg Prod.fst h
  norm_num at this

/-- Claim C9 (amended): the sample-offset table used when anti-aliasing is
disabled contains exactly one offset, (0, 0) — the pixel's integer corner,
not the pixel center (0.5, 0.5) used by the rasterizer's fragment
evaluation; the multi-sampling table contains exactly 4 offsets located at
the pixel's quadrant centers ((2i+1)/4, (2j+1)/4). -/
theorem sample_offset_tables :
    D_NonMSAA.length = 1 ∧ D_NonMSAA = [((0 : F), (0 : F))] ∧
    D_MSAA.length = 4 ∧ D_MSAA = quadrantCenters ∧ CNT_SAMPLE = D_MSAA.length := by
  refine ⟨rfl, rfl, rfl, ?_, rfl⟩
  unfold D_MSAA quadrantCenters
  norm_num

end Rasterizer

